import Mathlib

/-!
# go-118-fuzz-build: the file walker

A shallow embedding of `file_walker.go` and proofs about it.

Conventions of the embedding

* A Go `string` is a finite sequence of bytes.  It is embedded as `List Char`,
  one `Char` per byte; for the ASCII literals of the program the two readings
  coincide, and the program only measures, slices, compares and concatenates
  strings.
* A Go `map[string]string` is embedded as an association list with unique keys,
  with `GoMap.get` for `m[k]` and `GoMap.set` for `m[k] = v`.
* A Go `panic` is an explicit exit status next to the state reached so far.
* Library and operating-system functions (`strings.EqualFold`, `packages.Load`,
  `parser.ParseFile`, `printer.Fprint`, `astutil.*`, `os.*`) are not code of
  the program: they are parameters of the embedding, or small models that are
  marked as such.
-/

set_option autoImplicit false

namespace FileWalker

/-! ## Go strings -/

/-- A Go string: a sequence of bytes. -/
abbrev GoString := List Char

/-- Go `strings.HasSuffix`: `len(s) >= len(suffix) && s[len(s)-len(suffix):] == suffix`. -/
def HasSuffix (s suffix : GoString) : Bool :=
  decide (suffix.length ≤ s.length) && decide (s.drop (s.length - suffix.length) = suffix)

/-- Go `strings.TrimSuffix`: `s` without the trailing `suffix`, or `s` itself. -/
def TrimSuffix (s suffix : GoString) : GoString :=
  if HasSuffix s suffix then s.take (s.length - suffix.length) else s

/-! ## Go maps from strings to strings -/

/-- A `map[string]string` as an association list. -/
abbrev GoMap := List (GoString × GoString)

/-- The map read `v, ok := m[k]`: `some v` when `ok`. -/
def GoMap.get : GoMap → GoString → Option GoString
  | [], _ => none
  | (k', v) :: rest, k => if k' = k then some v else GoMap.get rest k

/-- The map write `m[k] = v`. -/
def GoMap.set : GoMap → GoString → GoString → GoMap
  | [], k, v => [(k, v)]
  | (k', v') :: rest, k, v => if k' = k then (k, v) :: rest else (k', v') :: GoMap.set rest k v

/-- The keys of a map. -/
def GoMap.keys (m : GoMap) : List GoString := m.map Prod.fst

/-- Removal of a key from a map (Go `delete(m, k)`). -/
def GoMap.erase : GoMap → GoString → GoMap
  | [], _ => []
  | (k', v') :: rest, k => if k' = k then GoMap.erase rest k else (k', v') :: GoMap.erase rest k

/-! ## Exit status of a call -/

/-- How a call of a Go function with an `error` result ends: it returns `nil`,
returns an error, or panics. -/
inductive Exit where
  | nil
  | err (e : String)
  | panic (msg : String)
  deriving DecidableEq, Repr

/-! ## The file system

The file system belongs to the operating system.  It is modelled as a flat map
from paths to file contents. -/

/-- The files on disk: path to content. -/
abbrev Disk := GoMap

/-- Model of `os.Rename`: it fails when `oldpath` does not exist, and otherwise
moves the file to `newpath`, replacing what was there. -/
def osRename (disk : Disk) (oldpath newpath : GoString) : Except String Disk :=
  match GoMap.get disk oldpath with
  | none => .error "rename: no such file or directory"
  | some content => .ok (GoMap.set (GoMap.erase disk oldpath) newpath content)

/-- Model of `os.Create`: the operating system decides where a file can be
created (`canCreate`).  Where it cannot, the call fails; where it can, the file
at `path` exists afterwards and is empty. -/
def osCreate (canCreate : GoString → Bool) (disk : Disk) (path : GoString) :
    Except String Disk :=
  if canCreate path then .ok (GoMap.set disk path []) else .error "open: permission denied"

/-- Model of `(*os.File).Write` on the file that was just created at `path`: the
file holds `content` afterwards. -/
def fileWrite (disk : Disk) (path content : GoString) : Disk := GoMap.set disk path content

/-! ## The rename ledger (`file_walker.go`, lines 30-38 and 206-225) -/

/-- The suffix of a test file. -/
def testSuffix : GoString := "_test.go".toList

/-- The suffix a renamed test file gets. -/
def libFuzzerSuffix : GoString := "_libFuzzer.go".toList

/-- The ledger `walker.renamedFiles` together with the disk the walker works on. -/
structure World where
  disk : Disk
  renamedFiles : GoMap
  deriving DecidableEq, Repr

/-- The function `NewFileWalker`: the ledger starts empty. -/
def NewFileWalker (disk : Disk) : World := { disk := disk, renamedFiles := [] }

/-- The method `addRenamedFile`: panics when `oldPath` is already a key,
otherwise stores `oldPath -> newPath`.  The `Bool` is `true` for the panic. -/
def addRenamedFile (renamedFiles : GoMap) (oldPath newPath : GoString) : GoMap × Bool :=
  match GoMap.get renamedFiles oldPath with
  | some _ => (renamedFiles, true)
  | none => (GoMap.set renamedFiles oldPath newPath, false)

/-- The new name of a test file: `strings.TrimSuffix(file, "_test.go")+"_libFuzzer.go"`. -/
def newName (file : GoString) : GoString := TrimSuffix file testSuffix ++ libFuzzerSuffix

/-- The method `RewriteAllImportedTestFiles`.  The slice expression
`file[len(file)-8:]` panics when `len(file) < 8`. -/
def RewriteAllImportedTestFiles : List GoString → World → World × Exit
  | [], w => (w, Exit.nil)
  | file :: rest, w =>
    if file.length < 8 then
      (w, Exit.panic "slice bounds out of range")
    else if file.drop (file.length - 8) = testSuffix then
      match osRename w.disk file (newName file) with
      | .error e => (w, Exit.err e)
      | .ok disk' =>
        match addRenamedFile w.renamedFiles file (newName file) with
        | (m, true) =>
          ({ disk := disk', renamedFiles := m }, Exit.panic "The file already exists which it shouldn't")
        | (m, false) => RewriteAllImportedTestFiles rest { disk := disk', renamedFiles := m }
    else
      RewriteAllImportedTestFiles rest w

/-! ## The dependency closure (`file_walker.go`, lines 266-318) -/

/-- The fields of `packages.Package` that the program reads.  `Imports` holds,
for each entry of the Go map `Imports`, the `PkgPath` of the imported package
(the only field of the entry that `appendPkgImports` reads). -/
structure Package where
  Name : GoString
  PkgPath : GoString
  Imports : List GoString
  GoFiles : List GoString
  deriving DecidableEq, Repr

/-- The package loader `packages.Load` for one pattern: the packages it
resolves to, or an error. -/
abbrev Loader := GoString → Except String (List Package)

/-- The order in which `range pkg.Imports` visits the entries of the map.  Go
leaves it unspecified, so it is a parameter of a run. -/
abbrev RangeOrder := Package → List GoString

/-- The variable `stdLibPkgs`. -/
def stdLibPkgs : List GoString :=
  ["testing".toList, "os".toList, "reflect".toList, "math/rand".toList,
   "testing/internal/testdeps".toList]

/-- The function `isStdLibPkg`: some entry of `stdLibPkgs` is `strings.EqualFold` to `importName`. -/
def isStdLibPkg (EqualFold : GoString → GoString → Bool) (importName : GoString) : Bool :=
  stdLibPkgs.any (fun stdLibPkg => EqualFold importName stdLibPkg)

/-- The function `pkgInPkgs`: some package of `pkgs` has a `PkgPath` that is
`strings.EqualFold` to `importPath`. -/
def pkgInPkgs (EqualFold : GoString → GoString → Bool) (importPath : GoString)
    (pkgs : List Package) : Bool :=
  pkgs.any (fun pkg => EqualFold pkg.PkgPath importPath)

/-- The function `loadPkg`: the packages of the loader, or its error. -/
def loadPkg (load : Loader) (path : GoString) : Except String (List Package) :=
  match load path with
  | .error err => .error err
  | .ok pkgs => .ok pkgs

/-- The inner loop of `appendPkgImports`, `for _, pack := range p`, with the
recursive call as the parameter `recur`.  `none` means that the recursion ran
out of fuel. -/
def packLoop (EqualFold : GoString → GoString → Bool)
    (recur : Package → List Package → Option (List Package × Option String)) :
    List Package → List Package → Option (List Package × Option String)
  | [], pkgsCopy => some (pkgsCopy, none)
  | pack :: rest, pkgsCopy =>
    if pkgInPkgs EqualFold pack.PkgPath pkgsCopy then
      packLoop EqualFold recur rest pkgsCopy
    else
      match recur pack (pkgsCopy ++ [pack]) with
      | none => none
      | some (pkgsCopy', some err) => some (pkgsCopy', some err)
      | some (pkgsCopy', none) => packLoop EqualFold recur rest pkgsCopy'

/-- The outer loop of `appendPkgImports`, `for _, imp := range pkg.Imports`,
over the imports in the order the range visits them. -/
def impLoop (EqualFold : GoString → GoString → Bool) (load : Loader)
    (recur : Package → List Package → Option (List Package × Option String)) :
    List GoString → List Package → Option (List Package × Option String)
  | [], pkgsCopy => some (pkgsCopy, none)
  | imp :: rest, pkgsCopy =>
    if isStdLibPkg EqualFold imp then
      impLoop EqualFold load recur rest pkgsCopy
    else
      match loadPkg load imp with
      | .error err => some (pkgsCopy, some err)
      | .ok p =>
        match packLoop EqualFold recur p pkgsCopy with
        | none => none
        | some (pkgsCopy', some err) => some (pkgsCopy', some err)
        | some (pkgsCopy', none) => impLoop EqualFold load recur rest pkgsCopy'

/-- The function `appendPkgImports`, with fuel for the depth of the recursion: the result is
the pair `(pkgsCopy, err)` the Go function returns, or `none` when the fuel is
used up. -/
def appendPkgImports (EqualFold : GoString → GoString → Bool) (load : Loader)
    (order : RangeOrder) : Nat → Package → List Package → Option (List Package × Option String)
  | 0, _, _ => none
  | fuel + 1, pkg, pkgs =>
    impLoop EqualFold load (appendPkgImports EqualFold load order fuel) (order pkg) pkgs

/-! ### The same traversal with a log of the calls

The log is ghost state: `appendPkgImportsLog` records, in order, the package of
every call of `appendPkgImports`. -/

/-- The state of the logged traversal: the closure, the log of the packages
recursed into, and the error. -/
structure Logged where
  pkgs : List Package
  visited : List Package
  err : Option String
  deriving DecidableEq, Repr

/-- The inner loop, logged. -/
def packLoopLog (EqualFold : GoString → GoString → Bool)
    (recur : Package → List Package → List Package → Option Logged) :
    List Package → List Package → List Package → Option Logged
  | [], pkgsCopy, log => some ⟨pkgsCopy, log, none⟩
  | pack :: rest, pkgsCopy, log =>
    if pkgInPkgs EqualFold pack.PkgPath pkgsCopy then
      packLoopLog EqualFold recur rest pkgsCopy log
    else
      match recur pack (pkgsCopy ++ [pack]) log with
      | none => none
      | some ⟨pkgsCopy', log', some err⟩ => some ⟨pkgsCopy', log', some err⟩
      | some ⟨pkgsCopy', log', none⟩ => packLoopLog EqualFold recur rest pkgsCopy' log'

/-- The outer loop, logged. -/
def impLoopLog (EqualFold : GoString → GoString → Bool) (load : Loader)
    (recur : Package → List Package → List Package → Option Logged) :
    List GoString → List Package → List Package → Option Logged
  | [], pkgsCopy, log => some ⟨pkgsCopy, log, none⟩
  | imp :: rest, pkgsCopy, log =>
    if isStdLibPkg EqualFold imp then
      impLoopLog EqualFold load recur rest pkgsCopy log
    else
      match loadPkg load imp with
      | .error err => some ⟨pkgsCopy, log, some err⟩
      | .ok p =>
        match packLoopLog EqualFold recur p pkgsCopy log with
        | none => none
        | some ⟨pkgsCopy', log', some err⟩ => some ⟨pkgsCopy', log', some err⟩
        | some ⟨pkgsCopy', log', none⟩ => impLoopLog EqualFold load recur rest pkgsCopy' log'

/-- The function `appendPkgImports` with the log: every call first appends its package to
the log. -/
def appendPkgImportsLog (EqualFold : GoString → GoString → Bool) (load : Loader)
    (order : RangeOrder) : Nat → Package → List Package → List Package → Option Logged
  | 0, _, _, _ => none
  | fuel + 1, pkg, pkgs, log =>
    impLoopLog EqualFold load (appendPkgImportsLog EqualFold load order fuel) (order pkg) pkgs
      (log ++ [pkg])

/-- The number of entries of the finite list `S` of paths that no package of
`pkgs` has as its `PkgPath`: the measure that bounds the depth of the recursion. -/
def uncovered (S : List GoString) (pkgs : List Package) : Nat :=
  (S.filter (fun s => decide (s ∉ pkgs.map Package.PkgPath))).length

/-- The result of the logged traversal without the log. -/
def Logged.erase (r : Logged) : List Package × Option String := (r.pkgs, r.err)

/-- A stand-in for `strings.EqualFold` on ASCII text, for the concrete examples:
equality after mapping `A`-`Z` to `a`-`z`. -/
def asciiLower (c : Char) : Char :=
  if 65 ≤ c.toNat ∧ c.toNat ≤ 90 then Char.ofNat (c.toNat + 32) else c

/-- ASCII case-insensitive equality. -/
def asciiEqualFold (s t : GoString) : Bool :=
  decide (s.map asciiLower = t.map asciiLower)


/-- No two entries of the closure at different positions have `PkgPath` values
that `strings.EqualFold` equates, in either order of the two arguments. -/
def NoDupPkgPath (EqualFold : GoString → GoString → Bool) (pkgs : List Package) : Prop :=
  pkgs.Pairwise (fun a b =>
    EqualFold a.PkgPath b.PkgPath = false ∧ EqualFold b.PkgPath a.PkgPath = false)

instance (EqualFold : GoString → GoString → Bool) (pkgs : List Package) :
    Decidable (NoDupPkgPath EqualFold pkgs) := by
  unfold NoDupPkgPath
  infer_instance

/-! ### A small dependency graph for the concrete examples

The root `m` imports `testing`, `m/a` and `m/b`; `m/a` imports `m/b` and `m/c`;
`m/b` imports `m/c` and, closing a cycle, `m/a`; `m/c` imports `M/A`, which is
`m/a` up to case, and `os`.  Loading `m/a` also yields its test variant, with the
same `PkgPath`. -/

/-- A package with the given name, path and imports and no files. -/
def mkPkg (name path : String) (imports : List String) : Package :=
  { Name := name.toList, PkgPath := path.toList, Imports := imports.map String.toList,
    GoFiles := [] }

/-- The root package `m`. -/
def exRoot : Package := mkPkg "m" "m" ["testing", "m/a", "m/b"]

/-- The package `m/a`. -/
def exA : Package := mkPkg "a" "m/a" ["m/b", "m/c"]

/-- The test variant of `m/a`. -/
def exATest : Package := mkPkg "a" "m/a" ["m/b", "m/c", "testing"]

/-- The package `m/b`. -/
def exB : Package := mkPkg "b" "m/b" ["m/c", "m/a"]

/-- The package `m/c`. -/
def exC : Package := mkPkg "c" "m/c" ["M/A", "os"]

/-- The loader of the example graph; every other pattern is a load error. -/
def exLoad : Loader := fun path =>
  if path = "m/a".toList ∨ path = "M/A".toList then .ok [exA, exATest]
  else if path = "m/b".toList then .ok [exB]
  else if path = "m/c".toList then .ok [exC]
  else .error "no such package"

/-- The loader of the example graph made total: a pattern that `exLoad` does
not know resolves to no package. -/
def exLoadTotal : Loader := fun path =>
  match exLoad path with
  | .error _ => .ok []
  | .ok ps => .ok ps

/-- The range order that visits the imports as they are listed. -/
def listedOrder : RangeOrder := fun pkg => pkg.Imports

/-- The range order that visits the imports in the reverse of the listed order. -/
def reversedOrder : RangeOrder := fun pkg => pkg.Imports.reverse

/-! ### A second graph, without a cycle

The root `m` imports `testing`, `m/a` and `m/b`; `m/a` and `m/b` each import
`m/c`; `m/c` imports `os`. -/

/-- The root package of the second graph. -/
def dagRoot : Package := mkPkg "m" "m" ["testing", "m/a", "m/b"]

/-- The package `m/a` of the second graph. -/
def dagA : Package := mkPkg "a" "m/a" ["m/c"]

/-- The package `m/b` of the second graph. -/
def dagB : Package := mkPkg "b" "m/b" ["m/c"]

/-- The package `m/c` of the second graph. -/
def dagC : Package := mkPkg "c" "m/c" ["os"]

/-- The loader of the second graph. -/
def dagLoad : Loader := fun path =>
  if path = "m/a".toList then .ok [dagA]
  else if path = "m/b".toList then .ok [dagB]
  else if path = "m/c".toList then .ok [dagC]
  else .error "no such package"

/-- The closure `L` covers the imports `imps`: for every import of `imps` that
`isStdLibPkg` does not exclude, every package the loader returns for it has its
`PkgPath` found in `L` by `pkgInPkgs`. -/
def Covered (EqualFold : GoString → GoString → Bool) (load : Loader) (imps : List GoString)
    (L : List Package) : Prop :=
  ∀ imp ∈ imps, isStdLibPkg EqualFold imp = false →
    ∀ ps, load imp = .ok ps → ∀ q ∈ ps, pkgInPkgs EqualFold q.PkgPath L = true

/-! ## Syntax trees (the part of `go/ast` that the program inspects) -/

/-- An expression.  The program tells identifiers, selectors and pointer types
apart; every other kind of expression is kept as its source text. -/
inductive Expr where
  | Ident (Name : GoString)
  | SelectorExpr (X : Expr) (Sel : GoString)
  | StarExpr (X : Expr)
  | Other (src : GoString)
  deriving DecidableEq, Repr

/-- An `ast.Field`: the names of a parameter group and their type. -/
structure Field where
  Names : List GoString
  Type_ : Expr
  deriving DecidableEq, Repr

/-- An `ast.FuncDecl`: receiver, name, the parameters `Type.Params.List`, the
results and the body (as source text). -/
structure FuncDecl where
  Recv : List Field
  Name : GoString
  Params : List Field
  Results : List Field
  Body : GoString
  deriving DecidableEq, Repr

/-- A top-level declaration: a function declaration, or a general declaration
(type, var, const) kept as its source text. -/
inductive Decl where
  | FuncDecl (d : FuncDecl)
  | GenDecl (src : GoString)
  deriving DecidableEq, Repr

/-- An `ast.ImportSpec`: the optional local name and `Path.Value`, which is the
string literal as it stands in the source, quotes included. -/
structure ImportSpec where
  Name : Option GoString
  PathValue : GoString
  deriving DecidableEq, Repr

/-- An `ast.File`: package name, import declarations, other declarations. -/
structure File where
  Name : GoString
  Imports : List ImportSpec
  Decls : List Decl
  deriving DecidableEq, Repr

/-- The library functions on source text and trees that the program calls:
`parser.ParseFile` with mode `0` and with mode `parser.ImportsOnly` (both on the
bytes of the file), `printer.Fprint`, `astutil.DeleteImport` and
`astutil.AddImport`. -/
structure GoTools where
  ParseFile : GoString → Except String File
  ParseImportsOnly : GoString → Except String File
  Fprint : File → GoString
  DeleteImport : File → GoString → File
  AddImport : File → GoString → File

/-- The call `parser.ParseFile(fset, path, nil, mode)`: reads the file at `path` and
parses it. -/
def parseFileAt (parse : GoString → Except String File) (disk : Disk) (path : GoString) :
    Except String File :=
  match GoMap.get disk path with
  | none => .error "open: no such file or directory"
  | some src => parse src

/-- The import path of the shim. -/
def shimPath : GoString := "github.com/AdamKorcz/go-118-fuzz-build/testing".toList

/-- The variable `customTestingName`. -/
def customTestingName : GoString := "customFuzzTestingPkg".toList

/-! ### `rewriteFuzzer` (lines 82-128) -/

/-- The first loop of `rewriteFuzzer`: the flag `fileHasOurHarness` after the
declarations, starting from `false`. -/
def fileHasOurHarness (fuzzerName : GoString) (decls : List Decl) : Bool :=
  decls.foldl
    (fun has decl =>
      match decl with
      | .FuncDecl d => if d.Name = fuzzerName then true else has
      | .GenDecl _ => has)
    false

/-- The function `rewriteFuzzer`: the disk afterwards and the results `originalPath`,
`originalFile`, `err`.  A panic has no results: next to `Exit.panic` the two
result strings are the zero values that the named results still hold. -/
def rewriteFuzzer (T : GoTools) (canCreate : GoString → Bool) (disk : Disk)
    (path fuzzerName : GoString) : Disk × GoString × GoString × Exit :=
  match parseFileAt T.ParseFile disk path with
  | .error err => (disk, [], "NONE".toList, Exit.err err)
  | .ok f =>
    if fileHasOurHarness fuzzerName f.Decls then
      match GoMap.get disk path with
      | none => (disk, [], [], Exit.panic "open: no such file or directory")
      | some originalFuzzContents =>
        match osCreate canCreate disk (path ++ "_fuzz.go".toList) with
        | .error err => (disk, [], [], Exit.panic err)
        | .ok disk1 =>
          (fileWrite disk1 (path ++ "_fuzz.go".toList)
              (T.Fprint (T.AddImport (T.DeleteImport f "testing".toList) shimPath)),
            path, originalFuzzContents, Exit.nil)
    else
      (disk, [], "NONE".toList, Exit.nil)

/-! ### `rewriteTestingImport` (lines 130-154) -/

/-- The second loop of `rewriteTestingImport`, on the tree in memory: the shim
path is given to every import whose `Path.Value` equals `testing`. -/
def replaceTestingImports (specs : List ImportSpec) : List ImportSpec :=
  specs.map (fun imp =>
    if imp.PathValue = "testing".toList then { imp with PathValue := shimPath } else imp)

/-- The function `rewriteTestingImport`: the disk afterwards and the error.  The function
changes the tree `fCheck` in memory and returns; it has no statement that prints
the tree or writes a file. -/
def rewriteTestingImport (T : GoTools) (disk : Disk) (path : GoString) : Disk × Exit :=
  match parseFileAt T.ParseImportsOnly disk path with
  | .error err => (disk, Exit.err err)
  | .ok fCheck =>
    if fCheck.Imports.any (fun imp => decide (imp.PathValue = shimPath)) then
      (disk, Exit.nil)
    else
      let _fCheck : File := { fCheck with Imports := replaceTestingImports fCheck.Imports }
      (disk, Exit.nil)

/-! ### `rewriteTestingFFunctionParams` (lines 168-204) -/

/-- The body of the loop over the parameters: a parameter of type
`*testing.F` gets the qualifier `customTestingName`; the `Bool` tells whether
that happened. -/
def rewriteParam (param : Field) : Field × Bool :=
  match param.Type_ with
  | .StarExpr (.SelectorExpr (.Ident name) sel) =>
    if name = "testing".toList ∧ sel = "F".toList then
      ({ param with Type_ := .StarExpr (.SelectorExpr (.Ident customTestingName) sel) }, true)
    else
      (param, false)
  | _ => (param, false)

/-- The loop over `funcDecl.Type.Params.List`, with the flag `update`. -/
def rewriteParams : List Field → Bool → List Field × Bool
  | [], update => ([], update)
  | param :: rest, update =>
    let r := rewriteParam param
    let rs := rewriteParams rest (if r.2 then true else update)
    (r.1 :: rs.1, rs.2)

/-- The loop over `f.Decls`, with the flag `update`. -/
def rewriteDecls : List Decl → Bool → List Decl × Bool
  | [], update => ([], update)
  | .FuncDecl funcDecl :: rest, update =>
    let ps := rewriteParams funcDecl.Params update
    let rs := rewriteDecls rest ps.2
    (.FuncDecl { funcDecl with Params := ps.1 } :: rs.1, rs.2)
  | .GenDecl src :: rest, update =>
    let rs := rewriteDecls rest update
    (.GenDecl src :: rs.1, rs.2)

/-- The function `rewriteTestingFFunctionParams`: the disk afterwards and the error. -/
def rewriteTestingFFunctionParams (T : GoTools) (canCreate : GoString → Bool) (disk : Disk)
    (path : GoString) : Disk × Exit :=
  match parseFileAt T.ParseFile disk path with
  | .error err => (disk, Exit.err err)
  | .ok f =>
    let r := rewriteDecls f.Decls false
    if r.2 then
      match osCreate canCreate disk path with
      | .error err => (disk, Exit.panic err)
      | .ok disk1 => (fileWrite disk1 path (T.Fprint { f with Decls := r.1 }), Exit.nil)
    else
      (disk, Exit.nil)

/-! ### The retargeting of parameters, as the specification words it -/

/-- The type `*testing.F`: a pointer to the selector with qualifier `testing`
and member `F`. -/
def testingF : Expr := .StarExpr (.SelectorExpr (.Ident "testing".toList) "F".toList)

/-- The type `*customFuzzTestingPkg.F`. -/
def customF : Expr := .StarExpr (.SelectorExpr (.Ident customTestingName) "F".toList)

/-- A parameter of type `*testing.F` becomes one of type
`*customFuzzTestingPkg.F`; any other parameter stays. -/
def specRetargetField (param : Field) : Field :=
  if param.Type_ = testingF then { param with Type_ := customF } else param

/-- In a function declaration the parameters are retargeted; any other
declaration stays. -/
def specRetargetDecl : Decl → Decl
  | .FuncDecl d => .FuncDecl { d with Params := d.Params.map specRetargetField }
  | .GenDecl src => .GenDecl src

/-- The file with the parameters of its function declarations retargeted and
everything else, the imports included, as it was. -/
def specRetargetFile (f : File) : File :=
  { f with Decls := f.Decls.map specRetargetDecl }

/-- Some parameter of the declaration has the type `*testing.F`. -/
def declHasTestingFParam : Decl → Bool
  | .FuncDecl d => d.Params.any (fun param => decide (param.Type_ = testingF))
  | .GenDecl _ => false

/-! ### A source file and toy tools for the concrete examples -/

/-- A string literal as it stands in Go source: the text between double quotes. -/
def quoted (s : GoString) : GoString := [Char.ofNat 34] ++ s ++ [Char.ofNat 34]

/-- The tree of a file `package main` that imports `testing` and declares
`func ourTestHelper(f *testing.F, t *testing.T, g testing.F, h *other.F)`. -/
def exFile : File :=
  { Name := "main".toList
    Imports := [{ Name := none, PathValue := quoted "testing".toList }]
    Decls := [.FuncDecl
      { Recv := []
        Name := "ourTestHelper".toList
        Params :=
          [{ Names := ["f".toList], Type_ := testingF },
           { Names := ["t".toList],
             Type_ := .StarExpr (.SelectorExpr (.Ident "testing".toList) "T".toList) },
           { Names := ["g".toList], Type_ := .SelectorExpr (.Ident "testing".toList) "F".toList },
           { Names := ["h".toList],
             Type_ := .StarExpr (.SelectorExpr (.Ident "other".toList) "F".toList) }]
        Results := []
        Body := "_ = f".toList }] }

/-- The text of `exFile`. -/
def exSrc : GoString :=
  "package main\nimport ".toList ++ quoted "testing".toList
    ++ ("\nfunc ourTestHelper(f *testing.F, t *testing.T, g testing.F, h *other.F) "
      ++ "\x7b _ = f \x7d\n").toList

/-- The text of `exFile` with the first parameter retargeted. -/
def exSrcRetargeted : GoString :=
  "package main\nimport ".toList ++ quoted "testing".toList
    ++ ("\nfunc ourTestHelper(f *customFuzzTestingPkg.F, t *testing.T, g testing.F, h *other.F) "
      ++ "\x7b _ = f \x7d\n").toList

/-- Toy tools: the parser knows the text `exSrc` only, the printer the tree of
`exFile` and its retargeted form; `DeleteImport` and `AddImport` work on the
quoted `Path.Value`. -/
def exTools : GoTools :=
  { ParseFile := fun src => if src = exSrc then .ok exFile else .error "syntax error"
    ParseImportsOnly := fun src =>
      if src = exSrc then .ok { exFile with Decls := [] } else .error "syntax error"
    Fprint := fun f =>
      if f = exFile then exSrc
      else if f = specRetargetFile exFile then exSrcRetargeted
      else "package main\n".toList
    DeleteImport := fun f path =>
      { f with Imports := f.Imports.filter (fun imp => decide (imp.PathValue ≠ quoted path)) }
    AddImport := fun f path =>
      { f with Imports := f.Imports ++ [{ Name := none, PathValue := quoted path }] } }

/-- The path of the example file. -/
def exPath : GoString := "/mod/file.go".toList

/-- A disk that holds the example file. -/
def exDisk : Disk := [(exPath, exSrc)]

/-! # Theorems -/

/-! ## Maps -/

theorem GoMap.get_set (m : GoMap) (k v k' : GoString) :
    GoMap.get (GoMap.set m k v) k' = if k' = k then some v else GoMap.get m k' := by
  induction m with
  | nil =>
    by_cases h : k' = k
    · simp [GoMap.set, GoMap.get, h]
    · have h' : ¬ k = k' := fun e => h e.symm
      simp [GoMap.set, GoMap.get, h, h']
  | cons e rest ih =>
    obtain ⟨a, b⟩ := e
    by_cases h1 : a = k
    · subst h1
      by_cases h2 : k' = a
      · simp [GoMap.set, GoMap.get, h2]
      · have h2' : ¬ a = k' := fun e => h2 e.symm
        simp [GoMap.set, GoMap.get, h2, h2']
    · by_cases h2 : k' = k
      · subst h2
        simp [GoMap.set, GoMap.get, h1, ih]
      · by_cases h3 : a = k'
        · simp [GoMap.set, GoMap.get, h1, h2, h3]
        · simp [GoMap.set, GoMap.get, h1, h2, h3, ih]

theorem GoMap.get_erase (m : GoMap) (k k' : GoString) :
    GoMap.get (GoMap.erase m k) k' = if k' = k then none else GoMap.get m k' := by
  induction m with
  | nil => simp [GoMap.erase, GoMap.get]
  | cons e rest ih =>
    obtain ⟨a, b⟩ := e
    by_cases h1 : a = k
    · subst h1
      by_cases h2 : k' = a
      · subst h2
        simpa [GoMap.erase] using ih
      · have h2' : ¬ a = k' := fun e => h2 e.symm
        simp [GoMap.erase, GoMap.get, h2, h2', ih]
    · by_cases h3 : a = k'
      · subst h3
        simp [GoMap.erase, GoMap.get, h1]
      · simp [GoMap.erase, GoMap.get, h1, h3, ih]

theorem GoMap.get_eq_none_iff (m : GoMap) (k : GoString) :
    GoMap.get m k = none ↔ k ∉ GoMap.keys m := by
  induction m with
  | nil => simp [GoMap.get, GoMap.keys]
  | cons e rest ih =>
    obtain ⟨a, b⟩ := e
    by_cases h : a = k
    · simp [GoMap.get, GoMap.keys, h]
    · have h' : ¬ k = a := fun e => h e.symm
      simp only [GoMap.get, h, if_false, ih]
      simp [GoMap.keys, h']

theorem GoMap.set_of_get_none (m : GoMap) (k v : GoString) (h : GoMap.get m k = none) :
    GoMap.set m k v = m ++ [(k, v)] := by
  induction m with
  | nil => simp [GoMap.set]
  | cons e rest ih =>
    obtain ⟨a, b⟩ := e
    by_cases h1 : a = k
    · simp [GoMap.get, h1] at h
    · simp only [GoMap.get, h1, if_false] at h
      simp [GoMap.set, h1, ih h]

theorem GoMap.get_append_single (m : GoMap) (k v k' : GoString) (h : GoMap.get m k = none) :
    GoMap.get (m ++ [(k, v)]) k' = if k' = k then some v else GoMap.get m k' := by
  rw [← GoMap.set_of_get_none m k v h, GoMap.get_set]

theorem GoMap.get_map_pair (l : List GoString) (g : GoString → GoString) (k : GoString) :
    GoMap.get (l.map (fun f => (f, g f))) k = if k ∈ l then some (g k) else none := by
  induction l with
  | nil => simp [GoMap.get]
  | cons a rest ih =>
    by_cases h : a = k
    · simp [GoMap.get, h]
    · have h' : ¬ k = a := fun e => h e.symm
      simp [GoMap.get, h, h', ih]

theorem GoMap.set_set (m : GoMap) (k a b : GoString) :
    GoMap.set (GoMap.set m k a) k b = GoMap.set m k b := by
  induction m with
  | nil => simp [GoMap.set]
  | cons e rest ih =>
    obtain ⟨k', v'⟩ := e
    by_cases h : k' = k
    · simp [GoMap.set, h]
    · simp [GoMap.set, h, ih]

theorem osCreate_of_true (canCreate : GoString → Bool) (disk : Disk) (path : GoString)
    (h : canCreate path = true) : osCreate canCreate disk path = .ok (GoMap.set disk path []) := by
  simp [osCreate, h]

theorem osCreate_of_false (canCreate : GoString → Bool) (disk : Disk) (path : GoString)
    (h : canCreate path = false) :
    osCreate canCreate disk path = .error "open: permission denied" := by
  simp [osCreate, h]

/-! ## The rename ledger -/

/-- C3: `addRenamedFile` panics exactly when `oldPath` is already a key of the
ledger, and then leaves the ledger as it was; otherwise it returns normally and
the ledger is the old one with the one new entry `oldPath -> newPath`: every
read of another key gives what it gave before, and there is one entry more. -/
theorem C3_addRenamedFile (m : GoMap) (oldPath newPath : GoString) :
    ((addRenamedFile m oldPath newPath).2 = true ↔ oldPath ∈ GoMap.keys m) ∧
    (oldPath ∈ GoMap.keys m → (addRenamedFile m oldPath newPath).1 = m) ∧
    (oldPath ∉ GoMap.keys m →
      (addRenamedFile m oldPath newPath).2 = false ∧
      (∀ k, GoMap.get (addRenamedFile m oldPath newPath).1 k
          = if k = oldPath then some newPath else GoMap.get m k) ∧
      (addRenamedFile m oldPath newPath).1 = m ++ [(oldPath, newPath)] ∧
      (addRenamedFile m oldPath newPath).1.length = m.length + 1) := by
  cases hg : GoMap.get m oldPath with
  | none =>
    have hk : oldPath ∉ GoMap.keys m := (GoMap.get_eq_none_iff m oldPath).1 hg
    have hadd : addRenamedFile m oldPath newPath = (GoMap.set m oldPath newPath, false) := by
      simp [addRenamedFile, hg]
    rw [hadd]
    refine ⟨by simp [hk], fun h => absurd h hk, fun _ => ⟨rfl, ?_, ?_, ?_⟩⟩
    · intro k
      exact GoMap.get_set m oldPath newPath k
    · exact GoMap.set_of_get_none m oldPath newPath hg
    · simp [GoMap.set_of_get_none m oldPath newPath hg]
  | some v =>
    have hk : oldPath ∈ GoMap.keys m := by
      by_contra hc
      rw [(GoMap.get_eq_none_iff m oldPath).2 hc] at hg
      cases hg
    have hadd : addRenamedFile m oldPath newPath = (m, true) := by
      simp [addRenamedFile, hg]
    rw [hadd]
    exact ⟨by simp [hk], fun _ => rfl, fun h => absurd hk h⟩

/-- Witness of C3: a ledger with the key `a_test.go`; recording `a_test.go`
again panics, recording `c_test.go` adds the entry. -/
theorem C3_addRenamedFile_witness :
    (addRenamedFile [("a_test.go".toList, "a_libFuzzer.go".toList)] "a_test.go".toList
        "x".toList).1 = [("a_test.go".toList, "a_libFuzzer.go".toList)] ∧
    (addRenamedFile [("a_test.go".toList, "a_libFuzzer.go".toList)] "c_test.go".toList
        "c_libFuzzer.go".toList).1
      = [("a_test.go".toList, "a_libFuzzer.go".toList),
         ("c_test.go".toList, "c_libFuzzer.go".toList)] :=
  ⟨(C3_addRenamedFile [("a_test.go".toList, "a_libFuzzer.go".toList)] "a_test.go".toList
      "x".toList).2.1 (by decide),
   ((C3_addRenamedFile [("a_test.go".toList, "a_libFuzzer.go".toList)] "c_test.go".toList
      "c_libFuzzer.go".toList).2.2 (by decide)).2.2.1⟩


theorem testSuffix_length : testSuffix.length = 8 := by decide

theorem libFuzzerSuffix_length : libFuzzerSuffix.length = 13 := by decide

theorem hasSuffix_test_iff (f : GoString) (hlen : 8 ≤ f.length) :
    HasSuffix f testSuffix = true ↔ f.drop (f.length - 8) = testSuffix := by
  simp [HasSuffix, testSuffix_length, hlen]

theorem eq_trim_append (f suffix : GoString) (h : HasSuffix f suffix = true) :
    f = TrimSuffix f suffix ++ suffix := by
  have h' := h
  simp only [HasSuffix, Bool.and_eq_true, decide_eq_true_eq] at h'
  simp only [TrimSuffix, h, if_true]
  conv_lhs => rw [← List.take_append_drop (f.length - suffix.length) f]
  rw [h'.2]

theorem newName_not_test (f : GoString) : HasSuffix (newName f) testSuffix = false := by
  have h : (newName f).drop ((newName f).length - 8) = "uzzer.go".toList := by
    have hl : (newName f).length - 8 = (TrimSuffix f testSuffix).length + 5 := by
      simp [newName, libFuzzerSuffix_length]
    rw [hl]
    simp only [newName]
    rw [List.drop_append]
    decide
  have hne : ¬ ("uzzer.go".toList = testSuffix) := by decide
  simp only [HasSuffix, testSuffix_length, h, hne, decide_False, Bool.and_false]

theorem newName_injective (f g : GoString) (hf : HasSuffix f testSuffix = true)
    (hg : HasSuffix g testSuffix = true) (h : newName f = newName g) : f = g := by
  have h' : TrimSuffix f testSuffix = TrimSuffix g testSuffix :=
    List.append_cancel_right h
  rw [eq_trim_append f testSuffix hf, eq_trim_append g testSuffix hg, h']

theorem newName_ne_test (f g : GoString) (hg : HasSuffix g testSuffix = true) :
    newName f ≠ g := by
  intro h
  rw [← h, newName_not_test] at hg
  cases hg

theorem rewriteAll_step_test (f : GoString) (rest : List GoString) (w : World) (c : GoString)
    (hlen : 8 ≤ f.length) (ht : HasSuffix f testSuffix = true)
    (hc : GoMap.get w.disk f = some c) (hm : GoMap.get w.renamedFiles f = none) :
    RewriteAllImportedTestFiles (f :: rest) w
      = RewriteAllImportedTestFiles rest
          { disk := GoMap.set (GoMap.erase w.disk f) (newName f) c,
            renamedFiles := w.renamedFiles ++ [(f, newName f)] } := by
  have h1 : ¬ f.length < 8 := by omega
  have h2 : f.drop (f.length - 8) = testSuffix := (hasSuffix_test_iff f hlen).1 ht
  rw [RewriteAllImportedTestFiles]
  simp only [h1, if_false, h2, if_true, osRename, hc, addRenamedFile, hm,
    GoMap.set_of_get_none _ _ _ hm]

theorem rewriteAll_step_other (f : GoString) (rest : List GoString) (w : World)
    (hlen : 8 ≤ f.length) (ht : HasSuffix f testSuffix = false) :
    RewriteAllImportedTestFiles (f :: rest) w = RewriteAllImportedTestFiles rest w := by
  have h1 : ¬ f.length < 8 := by omega
  have h2 : ¬ f.drop (f.length - 8) = testSuffix := by
    intro h
    rw [(hasSuffix_test_iff f hlen).2 h] at ht
    cases ht
  rw [RewriteAllImportedTestFiles]
  simp only [h1, if_false, h2]


theorem rewriteAll_spec (files : List GoString) :
    ∀ w : World, files.Nodup → (∀ f ∈ files, 8 ≤ f.length) →
      (∀ f ∈ files, GoMap.get w.disk f ≠ none) →
      (∀ f ∈ files, GoMap.get w.renamedFiles f = none) →
      (RewriteAllImportedTestFiles files w).2 = Exit.nil ∧
      (RewriteAllImportedTestFiles files w).1.renamedFiles
        = w.renamedFiles
          ++ (files.filter (fun f => HasSuffix f testSuffix)).map (fun f => (f, newName f)) ∧
      (∀ f ∈ files, HasSuffix f testSuffix = true →
        GoMap.get (RewriteAllImportedTestFiles files w).1.disk f = none ∧
        GoMap.get (RewriteAllImportedTestFiles files w).1.disk (newName f)
          = GoMap.get w.disk f) ∧
      (∀ p, (∀ f ∈ files, HasSuffix f testSuffix = true → p ≠ f ∧ p ≠ newName f) →
        GoMap.get (RewriteAllImportedTestFiles files w).1.disk p = GoMap.get w.disk p) := by
  induction files with
  | nil =>
    intro w _ _ _ _
    simp [RewriteAllImportedTestFiles]
  | cons f rest ih =>
    intro w hnd hlen hex hled
    have hf8 : 8 ≤ f.length := hlen f (List.mem_cons_self _ _)
    have hnd' : rest.Nodup := (List.nodup_cons.1 hnd).2
    have hfrest : f ∉ rest := (List.nodup_cons.1 hnd).1
    have hlen' : ∀ g ∈ rest, 8 ≤ g.length := fun g hg => hlen g (List.mem_cons_of_mem _ hg)
    cases ht : HasSuffix f testSuffix with
    | false =>
      rw [rewriteAll_step_other f rest w hf8 ht]
      obtain ⟨h1, h2, h3, h4⟩ := ih w hnd' hlen'
        (fun g hg => hex g (List.mem_cons_of_mem _ hg))
        (fun g hg => hled g (List.mem_cons_of_mem _ hg))
      refine ⟨h1, ?_, ?_, ?_⟩
      · rw [h2]
        simp [List.filter_cons, ht]
      · intro g hg hgt
        rcases List.mem_cons.1 hg with rfl | hg'
        · rw [ht] at hgt
          cases hgt
        · exact h3 g hg' hgt
      · intro p hp
        exact h4 p (fun g hg hgt => hp g (List.mem_cons_of_mem _ hg) hgt)
    | true =>
      obtain ⟨c, hc⟩ : ∃ c, GoMap.get w.disk f = some c :=
        Option.ne_none_iff_exists'.1 (hex f (List.mem_cons_self _ _))
      have hm : GoMap.get w.renamedFiles f = none := hled f (List.mem_cons_self _ _)
      rw [rewriteAll_step_test f rest w c hf8 ht hc hm]
      have hd1 : ∀ p, GoMap.get (GoMap.set (GoMap.erase w.disk f) (newName f) c) p
          = if p = newName f then some c else if p = f then none else GoMap.get w.disk p := by
        intro p
        rw [GoMap.get_set, GoMap.get_erase]
      obtain ⟨h1, h2, h3, h4⟩ := ih
        { disk := GoMap.set (GoMap.erase w.disk f) (newName f) c,
          renamedFiles := w.renamedFiles ++ [(f, newName f)] } hnd' hlen'
        (by
          intro g hg
          have hgf : g ≠ f := fun e => hfrest (e ▸ hg)
          show GoMap.get (GoMap.set (GoMap.erase w.disk f) (newName f) c) g ≠ none
          rw [hd1 g]
          by_cases hgn : g = newName f
          · simp [hgn]
          · simp only [hgn, if_false, hgf]
            exact hex g (List.mem_cons_of_mem _ hg))
        (by
          intro g hg
          have hgf : g ≠ f := fun e => hfrest (e ▸ hg)
          show GoMap.get (w.renamedFiles ++ [(f, newName f)]) g = none
          rw [GoMap.get_append_single _ _ _ _ hm]
          simp only [hgf, if_false]
          exact hled g (List.mem_cons_of_mem _ hg))
      refine ⟨h1, ?_, ?_, ?_⟩
      · rw [h2]
        simp [List.filter_cons, ht]
      · intro g hg hgt
        rcases List.mem_cons.1 hg with rfl | hg'
        · have hp : ∀ x ∈ rest, HasSuffix x testSuffix = true → g ≠ x ∧ g ≠ newName x :=
            fun x hx hxt => ⟨fun e => hfrest (e ▸ hx), fun e => newName_ne_test x g hgt e.symm⟩
          have hq : ∀ x ∈ rest, HasSuffix x testSuffix = true →
              newName g ≠ x ∧ newName g ≠ newName x :=
            fun x hx hxt => ⟨newName_ne_test g x hxt,
              fun e => hfrest ((newName_injective g x hgt hxt e) ▸ hx)⟩
          have hgn : g ≠ newName g := fun e => newName_ne_test g g hgt e.symm
          refine ⟨?_, ?_⟩
          · rw [h4 g hp]
            show GoMap.get (GoMap.set (GoMap.erase w.disk g) (newName g) c) g = none
            rw [hd1 g]
            simp [hgn]
          · rw [h4 (newName g) hq]
            show GoMap.get (GoMap.set (GoMap.erase w.disk g) (newName g) c) (newName g) = _
            rw [hd1 (newName g), hc]
            simp
        · obtain ⟨h3a, h3b⟩ := h3 g hg' hgt
          refine ⟨h3a, ?_⟩
          rw [h3b]
          show GoMap.get (GoMap.set (GoMap.erase w.disk f) (newName f) c) g = _
          rw [hd1 g]
          have hgf : g ≠ f := fun e => hfrest (e ▸ hg')
          have hgn : g ≠ newName f := fun e => newName_ne_test f g hgt e.symm
          simp [hgf, hgn]
      · intro p hp
        rw [h4 p (fun g hg hgt => hp g (List.mem_cons_of_mem _ hg) hgt)]
        show GoMap.get (GoMap.set (GoMap.erase w.disk f) (newName f) c) p = _
        rw [hd1 p]
        obtain ⟨hpf, hpn⟩ := hp f (List.mem_cons_self _ _) ht
        simp [hpf, hpn]


/-- C1: for pairwise distinct paths of at least 8 bytes that all exist on disk,
and an empty ledger, `RewriteAllImportedTestFiles` returns `nil`; the keys of the
ledger are exactly the input paths that end in `_test.go`, once each; such a
path `stem ++ "_test.go"` is mapped to `stem ++ "_libFuzzer.go"` and its file is
moved there; an input path that does not end in `_test.go` is not a key of the
ledger and still exists; and every path that is neither a renamed test file nor
the target of a rename holds what it held before. -/
theorem C1_rewriteAll_ledger_exact (files : List GoString) (disk : Disk)
    (hnodup : files.Nodup) (hlen : ∀ f ∈ files, 8 ≤ f.length)
    (hexists : ∀ f ∈ files, GoMap.get disk f ≠ none) :
    (RewriteAllImportedTestFiles files (NewFileWalker disk)).2 = Exit.nil ∧
    GoMap.keys (RewriteAllImportedTestFiles files (NewFileWalker disk)).1.renamedFiles
      = files.filter (fun f => HasSuffix f testSuffix) ∧
    (∀ f ∈ files, HasSuffix f testSuffix = true →
      ∃ stem, f = stem ++ testSuffix ∧
        GoMap.get (RewriteAllImportedTestFiles files (NewFileWalker disk)).1.renamedFiles f
          = some (stem ++ libFuzzerSuffix) ∧
        GoMap.get (RewriteAllImportedTestFiles files (NewFileWalker disk)).1.disk f = none ∧
        GoMap.get (RewriteAllImportedTestFiles files (NewFileWalker disk)).1.disk
          (stem ++ libFuzzerSuffix) = GoMap.get disk f) ∧
    (∀ f ∈ files, HasSuffix f testSuffix = false →
      GoMap.get (RewriteAllImportedTestFiles files (NewFileWalker disk)).1.renamedFiles f = none ∧
      GoMap.get (RewriteAllImportedTestFiles files (NewFileWalker disk)).1.disk f ≠ none) ∧
    (∀ p, (∀ f ∈ files, HasSuffix f testSuffix = true → p ≠ f ∧ p ≠ newName f) →
      GoMap.get (RewriteAllImportedTestFiles files (NewFileWalker disk)).1.disk p
        = GoMap.get disk p) := by
  obtain ⟨h1, h2, h3, h4⟩ := rewriteAll_spec files (NewFileWalker disk) hnodup hlen hexists
    (fun _ _ => rfl)
  have hled : (RewriteAllImportedTestFiles files (NewFileWalker disk)).1.renamedFiles
      = (files.filter (fun f => HasSuffix f testSuffix)).map (fun f => (f, newName f)) := by
    rw [h2]
    simp [NewFileWalker]
  refine ⟨h1, ?_, ?_, ?_, h4⟩
  · rw [hled]
    simp [GoMap.keys, Function.comp_def]
  · intro f hf ht
    refine ⟨TrimSuffix f testSuffix, eq_trim_append f testSuffix ht, ?_, (h3 f hf ht).1,
      (h3 f hf ht).2⟩
    rw [hled, GoMap.get_map_pair]
    have hmem : f ∈ files.filter (fun f => HasSuffix f testSuffix) :=
      List.mem_filter.2 ⟨hf, ht⟩
    simp [hmem, newName]
  · intro f hf ht
    refine ⟨?_, ?_⟩
    · rw [hled, GoMap.get_map_pair]
      have hmem : f ∉ files.filter (fun f => HasSuffix f testSuffix) := by
        intro hm
        rw [(List.mem_filter.1 hm).2] at ht
        cases ht
      simp [hmem]
    · by_cases hex : ∃ g ∈ files, HasSuffix g testSuffix = true ∧ f = newName g
      · obtain ⟨g, hg, hgt, hfg⟩ := hex
        rw [hfg, (h3 g hg hgt).2]
        exact hexists g hg
      · rw [h4 f]
        · exact hexists f hf
        · intro g hg hgt
          refine ⟨?_, fun e => hex ⟨g, hg, hgt, e⟩⟩
          intro e
          rw [e, hgt] at ht
          cases ht

/-- Witness of C1: the three files `/mod/a_test.go`, `/mod/b.go` and
`/mod/c_test.go` give a ledger with exactly the two keys `/mod/a_test.go` and
`/mod/c_test.go`. -/
theorem C1_rewriteAll_ledger_exact_witness :
    GoMap.keys (RewriteAllImportedTestFiles
        ["/mod/a_test.go".toList, "/mod/b.go".toList, "/mod/c_test.go".toList]
        (NewFileWalker [("/mod/a_test.go".toList, "package a".toList),
          ("/mod/b.go".toList, "package b".toList),
          ("/mod/c_test.go".toList, "package c".toList)])).1.renamedFiles
      = ["/mod/a_test.go".toList, "/mod/c_test.go".toList] :=
  (C1_rewriteAll_ledger_exact
    ["/mod/a_test.go".toList, "/mod/b.go".toList, "/mod/c_test.go".toList]
    [("/mod/a_test.go".toList, "package a".toList),
      ("/mod/b.go".toList, "package b".toList),
      ("/mod/c_test.go".toList, "package c".toList)]
    (by decide) (by decide) (by decide)).2.1.trans (by decide)

/-- C2 (the code departs from it): on the path `a.go`, and on the empty path,
neither of which ends in `_test.go`, `RewriteAllImportedTestFiles` panics in the
slice expression `file[len(file)-8:]` instead of returning `nil`. -/
theorem C2_short_path_panics :
    HasSuffix "a.go".toList testSuffix = false ∧
    (RewriteAllImportedTestFiles ["a.go".toList]
        (NewFileWalker [("a.go".toList, "package a".toList)])).2
      = Exit.panic "slice bounds out of range" ∧
    HasSuffix [] testSuffix = false ∧
    (RewriteAllImportedTestFiles [[]] (NewFileWalker [])).2
      = Exit.panic "slice bounds out of range" ∧
    (RewriteAllImportedTestFiles ["/a.go".toList, "/mod/c_test.go".toList]
        (NewFileWalker [("/a.go".toList, "package a".toList),
          ("/mod/c_test.go".toList, "package c".toList)]))
      = (NewFileWalker [("/a.go".toList, "package a".toList),
          ("/mod/c_test.go".toList, "package c".toList)],
        Exit.panic "slice bounds out of range") := by
  decide


/-! ## The dependency closure: invariants of the traversal -/

theorem pkgInPkgs_eq_true (EqualFold : GoString → GoString → Bool) (path : GoString)
    (pkgs : List Package) :
    pkgInPkgs EqualFold path pkgs = true ↔ ∃ p ∈ pkgs, EqualFold p.PkgPath path = true := by
  simp [pkgInPkgs]

theorem pkgInPkgs_eq_false (EqualFold : GoString → GoString → Bool) (path : GoString)
    (pkgs : List Package) :
    pkgInPkgs EqualFold path pkgs = false ↔ ∀ p ∈ pkgs, EqualFold p.PkgPath path = false := by
  simp [pkgInPkgs]

theorem packLoop_invariant (EqualFold : GoString → GoString → Bool)
    (recur : Package → List Package → Option (List Package × Option String))
    (Inv : List Package → Prop)
    (hstep : ∀ acc pack, Inv acc → pkgInPkgs EqualFold pack.PkgPath acc = false →
      Inv (acc ++ [pack]))
    (hrec : ∀ pack acc r, recur pack acc = some r → Inv acc → Inv r.1)
    (p : List Package) :
    ∀ acc r, packLoop EqualFold recur p acc = some r → Inv acc → Inv r.1 := by
  induction p with
  | nil =>
    intro acc r h hinv
    simp only [packLoop, Option.some.injEq] at h
    rw [← h]
    exact hinv
  | cons pack rest ih =>
    intro acc r h hinv
    rw [packLoop] at h
    cases hin : pkgInPkgs EqualFold pack.PkgPath acc with
    | true =>
      simp only [hin, if_true] at h
      exact ih acc r h hinv
    | false =>
      simp only [hin, Bool.false_eq_true, if_false] at h
      cases hr : recur pack (acc ++ [pack]) with
      | none => simp [hr] at h
      | some r1 =>
        obtain ⟨l1, e1⟩ := r1
        have hinv1 : Inv l1 := hrec pack (acc ++ [pack]) (l1, e1) hr (hstep acc pack hinv hin)
        cases e1 with
        | some err =>
          simp only [hr, Option.some.injEq] at h
          rw [← h]
          exact hinv1
        | none =>
          simp only [hr] at h
          exact ih l1 r h hinv1

theorem impLoop_invariant (EqualFold : GoString → GoString → Bool) (load : Loader)
    (recur : Package → List Package → Option (List Package × Option String))
    (Inv : List Package → Prop)
    (hstep : ∀ acc pack, Inv acc → pkgInPkgs EqualFold pack.PkgPath acc = false →
      Inv (acc ++ [pack]))
    (hrec : ∀ pack acc r, recur pack acc = some r → Inv acc → Inv r.1)
    (imps : List GoString) :
    ∀ acc r, impLoop EqualFold load recur imps acc = some r → Inv acc → Inv r.1 := by
  induction imps with
  | nil =>
    intro acc r h hinv
    simp only [impLoop, Option.some.injEq] at h
    rw [← h]
    exact hinv
  | cons imp rest ih =>
    intro acc r h hinv
    rw [impLoop] at h
    cases hstd : isStdLibPkg EqualFold imp with
    | true =>
      simp only [hstd, if_true] at h
      exact ih acc r h hinv
    | false =>
      simp only [hstd, Bool.false_eq_true, if_false] at h
      cases hl : loadPkg load imp with
      | error err =>
        simp only [hl, Option.some.injEq] at h
        rw [← h]
        exact hinv
      | ok p =>
        simp only [hl] at h
        cases hp : packLoop EqualFold recur p acc with
        | none => simp [hp] at h
        | some r1 =>
          obtain ⟨l1, e1⟩ := r1
          have hinv1 : Inv l1 :=
            packLoop_invariant EqualFold recur Inv hstep hrec p acc (l1, e1) hp hinv
          cases e1 with
          | some err =>
            simp only [hp, Option.some.injEq] at h
            rw [← h]
            exact hinv1
          | none =>
            simp only [hp] at h
            exact ih l1 r h hinv1

/-- Every property of the closure that survives the append of a package that
`pkgInPkgs` does not find, survives `appendPkgImports`, on the success and on
the error return. -/
theorem appendPkgImports_invariant (EqualFold : GoString → GoString → Bool) (load : Loader)
    (order : RangeOrder) (Inv : List Package → Prop)
    (hstep : ∀ acc pack, Inv acc → pkgInPkgs EqualFold pack.PkgPath acc = false →
      Inv (acc ++ [pack]))
    (fuel : Nat) :
    ∀ pkg pkgs r, appendPkgImports EqualFold load order fuel pkg pkgs = some r →
      Inv pkgs → Inv r.1 := by
  induction fuel with
  | zero =>
    intro pkg pkgs r h
    simp [appendPkgImports] at h
  | succ n ih =>
    intro pkg pkgs r h hinv
    rw [appendPkgImports] at h
    exact impLoop_invariant EqualFold load _ Inv hstep ih (order pkg) pkgs r h hinv


theorem asciiEqualFold_symm (a b : GoString) : asciiEqualFold a b = asciiEqualFold b a := by
  simp only [asciiEqualFold]
  exact decide_eq_decide.2 eq_comm

theorem asciiEqualFold_refl (a : GoString) : asciiEqualFold a a = true := by
  simp [asciiEqualFold]

theorem noDupPkgPath_append (EqualFold : GoString → GoString → Bool)
    (hsymm : ∀ a b, EqualFold a b = EqualFold b a) (acc : List Package) (pack : Package)
    (hnd : NoDupPkgPath EqualFold acc)
    (hin : pkgInPkgs EqualFold pack.PkgPath acc = false) :
    NoDupPkgPath EqualFold (acc ++ [pack]) := by
  unfold NoDupPkgPath at hnd ⊢
  rw [List.pairwise_append]
  refine ⟨hnd, List.pairwise_singleton _ _, ?_⟩
  intro a ha b hb
  rw [List.mem_singleton] at hb
  subst hb
  have h1 := (pkgInPkgs_eq_false EqualFold b.PkgPath acc).1 hin a ha
  exact ⟨h1, by rw [hsymm]; exact h1⟩

/-- C4: `appendPkgImports` preserves the absence of duplicates: when no two
entries of `pkgs` at different positions have `PkgPath` values equal under
`strings.EqualFold`, the same holds of the list it returns, whether it returns
an error or not.  In particular the closure built from the single root package
has no two positions `i ≠ j` with `EqualFold`-equal paths. -/
theorem C4_appendPkgImports_no_duplicates (EqualFold : GoString → GoString → Bool)
    (hsymm : ∀ a b, EqualFold a b = EqualFold b a) (load : Loader) (order : RangeOrder)
    (fuel : Nat) :
    (∀ pkg pkgs r, NoDupPkgPath EqualFold pkgs →
      appendPkgImports EqualFold load order fuel pkg pkgs = some r →
      NoDupPkgPath EqualFold r.1) ∧
    (∀ root r, appendPkgImports EqualFold load order fuel root [root] = some r →
      NoDupPkgPath EqualFold r.1 ∧
      ∀ (i j : Nat) (hi : i < r.1.length) (hj : j < r.1.length), i ≠ j →
        EqualFold (r.1[i]).PkgPath (r.1[j]).PkgPath = false) := by
  have key : ∀ pkg pkgs r, NoDupPkgPath EqualFold pkgs →
      appendPkgImports EqualFold load order fuel pkg pkgs = some r →
      NoDupPkgPath EqualFold r.1 := fun pkg pkgs r hnd h =>
    appendPkgImports_invariant EqualFold load order (NoDupPkgPath EqualFold)
      (noDupPkgPath_append EqualFold hsymm) fuel pkg pkgs r h hnd
  refine ⟨key, ?_⟩
  intro root r h
  have hnd : NoDupPkgPath EqualFold r.1 :=
    key root [root] r (by simp [NoDupPkgPath]) h
  refine ⟨hnd, ?_⟩
  intro i j hi hj hij
  have hpw := List.pairwise_iff_getElem.1 hnd
  rcases Nat.lt_or_gt_of_ne hij with hlt | hgt
  · exact (hpw i j hi hj hlt).1
  · exact (hpw j i hj hi hgt).2

/-- Witness of C4: on the example graph, with its cycle and its case variant
`M/A`, the closure of the root has no duplicate. -/
theorem C4_appendPkgImports_no_duplicates_witness :
    (∀ a b, asciiEqualFold a b = asciiEqualFold b a) ∧
    appendPkgImports asciiEqualFold exLoad listedOrder 5 exRoot [exRoot]
      = some ([exRoot, exA, exB, exC], none) ∧
    NoDupPkgPath asciiEqualFold [exRoot, exA, exB, exC] :=
  ⟨asciiEqualFold_symm, by decide,
    ((C4_appendPkgImports_no_duplicates asciiEqualFold asciiEqualFold_symm exLoad listedOrder
      5).2 exRoot ([exRoot, exA, exB, exC], none) (by decide)).1⟩


/-! ## The dependency closure: closed under the imports that are not excluded -/

theorem loadPkg_eq (load : Loader) (path : GoString) : loadPkg load path = load path := by
  unfold loadPkg
  cases load path <;> rfl

theorem pkgInPkgs_mono (EqualFold : GoString → GoString → Bool) (path : GoString)
    (L L' : List Package) (hsub : L ⊆ L') (h : pkgInPkgs EqualFold path L = true) :
    pkgInPkgs EqualFold path L' = true := by
  rw [pkgInPkgs_eq_true] at h ⊢
  obtain ⟨p, hp, he⟩ := h
  exact ⟨p, hsub hp, he⟩

theorem covered_mono (EqualFold : GoString → GoString → Bool) (load : Loader)
    (imps : List GoString) (L L' : List Package) (hsub : L ⊆ L')
    (h : Covered EqualFold load imps L) : Covered EqualFold load imps L' :=
  fun imp himp hstd ps hps q hq =>
    pkgInPkgs_mono EqualFold q.PkgPath L L' hsub (h imp himp hstd ps hps q hq)

theorem packLoop_closed (EqualFold : GoString → GoString → Bool)
    (hrefl : ∀ a, EqualFold a a = true) (load : Loader) (order : RangeOrder)
    (recur : Package → List Package → Option (List Package × Option String))
    (hrec : ∀ pack acc L, recur pack acc = some (L, none) →
      Covered EqualFold load (order pack) L ∧
      (∀ q ∈ L, q ∈ acc ∨ Covered EqualFold load (order q) L) ∧ acc ⊆ L)
    (ps : List Package) :
    ∀ acc L, packLoop EqualFold recur ps acc = some (L, none) →
      (∀ q ∈ ps, pkgInPkgs EqualFold q.PkgPath L = true) ∧
      (∀ q ∈ L, q ∈ acc ∨ Covered EqualFold load (order q) L) ∧ acc ⊆ L := by
  induction ps with
  | nil =>
    intro acc L h
    simp only [packLoop, Option.some.injEq, Prod.mk.injEq, and_true] at h
    subst h
    exact ⟨by simp, fun q hq => Or.inl hq, List.Subset.refl _⟩
  | cons pack rest ih =>
    intro acc L h
    rw [packLoop] at h
    cases hin : pkgInPkgs EqualFold pack.PkgPath acc with
    | true =>
      simp only [hin, if_true] at h
      obtain ⟨h1, h2, h3⟩ := ih acc L h
      refine ⟨?_, h2, h3⟩
      intro q hq
      rcases List.mem_cons.1 hq with rfl | hq'
      · exact pkgInPkgs_mono EqualFold _ acc L h3 hin
      · exact h1 q hq'
    | false =>
      simp only [hin, Bool.false_eq_true, if_false] at h
      cases hr : recur pack (acc ++ [pack]) with
      | none => simp [hr] at h
      | some r1 =>
        obtain ⟨l1, e1⟩ := r1
        cases e1 with
        | some err => simp [hr] at h
        | none =>
          simp only [hr] at h
          obtain ⟨c1, c2, c3⟩ := hrec pack (acc ++ [pack]) l1 hr
          obtain ⟨h1, h2, h3⟩ := ih l1 L h
          have hpackL : pack ∈ L := h3 (c3 (by simp))
          refine ⟨?_, ?_, ?_⟩
          · intro q hq
            rcases List.mem_cons.1 hq with rfl | hq'
            · exact (pkgInPkgs_eq_true EqualFold _ L).2 ⟨q, hpackL, hrefl _⟩
            · exact h1 q hq'
          · intro q hq
            rcases h2 q hq with hq1 | hcov
            · rcases c2 q hq1 with hqa | hcov1
              · rcases List.mem_append.1 hqa with hqacc | hqp
                · exact Or.inl hqacc
                · rw [List.mem_singleton] at hqp
                  subst hqp
                  exact Or.inr (covered_mono EqualFold load _ l1 L h3 c1)
              · exact Or.inr (covered_mono EqualFold load _ l1 L h3 hcov1)
            · exact Or.inr hcov
          · exact fun x hx => h3 (c3 (List.mem_append_left _ hx))

theorem impLoop_closed (EqualFold : GoString → GoString → Bool)
    (hrefl : ∀ a, EqualFold a a = true) (load : Loader) (order : RangeOrder)
    (recur : Package → List Package → Option (List Package × Option String))
    (hrec : ∀ pack acc L, recur pack acc = some (L, none) →
      Covered EqualFold load (order pack) L ∧
      (∀ q ∈ L, q ∈ acc ∨ Covered EqualFold load (order q) L) ∧ acc ⊆ L)
    (imps : List GoString) :
    ∀ acc L, impLoop EqualFold load recur imps acc = some (L, none) →
      Covered EqualFold load imps L ∧
      (∀ q ∈ L, q ∈ acc ∨ Covered EqualFold load (order q) L) ∧ acc ⊆ L := by
  induction imps with
  | nil =>
    intro acc L h
    simp only [impLoop, Option.some.injEq, Prod.mk.injEq, and_true] at h
    subst h
    exact ⟨fun imp himp => by simp at himp, fun q hq => Or.inl hq, List.Subset.refl _⟩
  | cons imp rest ih =>
    intro acc L h
    rw [impLoop] at h
    cases hstd : isStdLibPkg EqualFold imp with
    | true =>
      simp only [hstd, if_true] at h
      obtain ⟨h1, h2, h3⟩ := ih acc L h
      refine ⟨?_, h2, h3⟩
      intro x hx hxstd
      rcases List.mem_cons.1 hx with rfl | hx'
      · rw [hstd] at hxstd
        cases hxstd
      · exact h1 x hx' hxstd
    | false =>
      simp only [hstd, Bool.false_eq_true, if_false, loadPkg_eq] at h
      cases hl : load imp with
      | error err => simp [hl] at h
      | ok p =>
        simp only [hl] at h
        cases hp : packLoop EqualFold recur p acc with
        | none => simp [hp] at h
        | some r1 =>
          obtain ⟨l1, e1⟩ := r1
          cases e1 with
          | some err => simp [hp] at h
          | none =>
            simp only [hp] at h
            obtain ⟨c1, c2, c3⟩ :=
              packLoop_closed EqualFold hrefl load order recur hrec p acc l1 hp
            obtain ⟨h1, h2, h3⟩ := ih l1 L h
            refine ⟨?_, ?_, fun x hx => h3 (c3 hx)⟩
            · intro x hx hxstd ps hps q hq
              rcases List.mem_cons.1 hx with rfl | hx'
              · rw [hl] at hps
                cases hps
                exact pkgInPkgs_mono EqualFold _ l1 L h3 (c1 q hq)
              · exact h1 x hx' hxstd ps hps q hq
            · intro q hq
              rcases h2 q hq with hq1 | hcov
              · rcases c2 q hq1 with hqa | hcov1
                · exact Or.inl hqa
                · exact Or.inr (covered_mono EqualFold load _ l1 L h3 hcov1)
              · exact Or.inr hcov

theorem appendPkgImports_closed (EqualFold : GoString → GoString → Bool)
    (hrefl : ∀ a, EqualFold a a = true) (load : Loader) (order : RangeOrder) (fuel : Nat) :
    ∀ pkg pkgs L, appendPkgImports EqualFold load order fuel pkg pkgs = some (L, none) →
      Covered EqualFold load (order pkg) L ∧
      (∀ q ∈ L, q ∈ pkgs ∨ Covered EqualFold load (order q) L) ∧ pkgs ⊆ L := by
  induction fuel with
  | zero =>
    intro pkg pkgs L h
    simp [appendPkgImports] at h
  | succ n ih =>
    intro pkg pkgs L h
    rw [appendPkgImports] at h
    exact impLoop_closed EqualFold hrefl load order _ ih (order pkg) pkgs L h


theorem packLoop_no_error (EqualFold : GoString → GoString → Bool)
    (recur : Package → List Package → Option (List Package × Option String))
    (hrec : ∀ pack acc r, recur pack acc = some r → r.2 = none) (ps : List Package) :
    ∀ acc r, packLoop EqualFold recur ps acc = some r → r.2 = none := by
  induction ps with
  | nil =>
    intro acc r h
    simp only [packLoop, Option.some.injEq] at h
    rw [← h]
  | cons pack rest ih =>
    intro acc r h
    rw [packLoop] at h
    cases hin : pkgInPkgs EqualFold pack.PkgPath acc with
    | true =>
      simp only [hin, if_true] at h
      exact ih acc r h
    | false =>
      simp only [hin, Bool.false_eq_true, if_false] at h
      cases hr : recur pack (acc ++ [pack]) with
      | none => simp [hr] at h
      | some r1 =>
        obtain ⟨l1, e1⟩ := r1
        have he : e1 = none := hrec pack (acc ++ [pack]) (l1, e1) hr
        subst he
        simp only [hr] at h
        exact ih l1 r h

theorem impLoop_no_error (EqualFold : GoString → GoString → Bool) (load : Loader)
    (hload : ∀ path, ∃ ps, load path = .ok ps)
    (recur : Package → List Package → Option (List Package × Option String))
    (hrec : ∀ pack acc r, recur pack acc = some r → r.2 = none) (imps : List GoString) :
    ∀ acc r, impLoop EqualFold load recur imps acc = some r → r.2 = none := by
  induction imps with
  | nil =>
    intro acc r h
    simp only [impLoop, Option.some.injEq] at h
    rw [← h]
  | cons imp rest ih =>
    intro acc r h
    rw [impLoop] at h
    cases hstd : isStdLibPkg EqualFold imp with
    | true =>
      simp only [hstd, if_true] at h
      exact ih acc r h
    | false =>
      obtain ⟨p, hl⟩ := hload imp
      simp only [hstd, Bool.false_eq_true, if_false, loadPkg_eq, hl] at h
      cases hp : packLoop EqualFold recur p acc with
      | none => simp [hp] at h
      | some r1 =>
        obtain ⟨l1, e1⟩ := r1
        have he : e1 = none := packLoop_no_error EqualFold recur hrec p acc (l1, e1) hp
        subst he
        simp only [hp] at h
        exact ih l1 r h

theorem appendPkgImports_no_error (EqualFold : GoString → GoString → Bool) (load : Loader)
    (hload : ∀ path, ∃ ps, load path = .ok ps) (order : RangeOrder) (fuel : Nat) :
    ∀ pkg pkgs r, appendPkgImports EqualFold load order fuel pkg pkgs = some r → r.2 = none := by
  induction fuel with
  | zero =>
    intro pkg pkgs r h
    simp [appendPkgImports] at h
  | succ n ih =>
    intro pkg pkgs r h
    rw [appendPkgImports] at h
    exact impLoop_no_error EqualFold load hload _ ih (order pkg) pkgs r h

theorem appendPkgImports_prefix (EqualFold : GoString → GoString → Bool) (load : Loader)
    (order : RangeOrder) (fuel : Nat) (pkg : Package) (pkgs : List Package)
    (r : List Package × Option String)
    (h : appendPkgImports EqualFold load order fuel pkg pkgs = some r) : pkgs <+: r.1 :=
  appendPkgImports_invariant EqualFold load order (fun acc => pkgs <+: acc)
    (fun acc pack hacc _ => hacc.trans (List.prefix_append acc [pack])) fuel pkg pkgs r h
    (List.prefix_refl pkgs)

/-- C5: with a loader that succeeds on every import path, a run of
`appendPkgImports` on the single root package that returns, returns no error and
a list that starts with the root and is closed under the imports that are not
excluded: for every package `P` of the result and every import of `P` that
`isStdLibPkg` does not exclude, every package that the loader returns for
that import has a package with an `EqualFold`-equal `PkgPath` in the result. -/
theorem C5_appendPkgImports_closed (EqualFold : GoString → GoString → Bool)
    (hrefl : ∀ a, EqualFold a a = true) (load : Loader)
    (hload : ∀ path, ∃ ps, load path = .ok ps) (order : RangeOrder)
    (hord : ∀ (P : Package), ∀ imp ∈ P.Imports, imp ∈ order P)
    (fuel : Nat) (root : Package) (r : List Package × Option String)
    (hrun : appendPkgImports EqualFold load order fuel root [root] = some r) :
    r.2 = none ∧ r.1.head? = some root ∧
    ∀ P ∈ r.1, ∀ imp ∈ P.Imports, isStdLibPkg EqualFold imp = false →
      ∀ ps, load imp = .ok ps → ∀ q ∈ ps,
        ∃ p ∈ r.1, EqualFold p.PkgPath q.PkgPath = true := by
  have herr : r.2 = none :=
    appendPkgImports_no_error EqualFold load hload order fuel root [root] r hrun
  obtain ⟨L, e⟩ := r
  simp only at herr
  subst herr
  obtain ⟨t, ht⟩ := appendPkgImports_prefix EqualFold load order fuel root [root] (L, none) hrun
  obtain ⟨c1, c2, _⟩ := appendPkgImports_closed EqualFold hrefl load order fuel root [root] L hrun
  refine ⟨rfl, ?_, ?_⟩
  · simp only at ht
    rw [← ht]
    rfl
  · intro P hP imp himp hstd ps hps q hq
    have hcov : Covered EqualFold load (order P) L := by
      rcases c2 P hP with hroot | hcov
      · rw [List.mem_singleton] at hroot
        subst hroot
        exact c1
      · exact hcov
    exact (pkgInPkgs_eq_true EqualFold q.PkgPath L).1
      (hcov imp (hord P imp himp) hstd ps hps q hq)

theorem exLoadTotal_total (path : GoString) : ∃ ps, exLoadTotal path = .ok ps := by
  unfold exLoadTotal
  cases exLoad path with
  | error e => exact ⟨[], rfl⟩
  | ok ps => exact ⟨ps, rfl⟩

/-- Witness of C5: on the example graph, where `m/b` and `m/c` are reached by
more than one path, the root, `m/a`, `m/b` and `m/c` are all in the closure, and
the closure starts with the root. -/
theorem C5_appendPkgImports_closed_witness :
    appendPkgImports asciiEqualFold exLoadTotal listedOrder 5 exRoot [exRoot]
      = some ([exRoot, exA, exB, exC], none) ∧
    ([exRoot, exA, exB, exC], (none : Option String)).1.head? = some exRoot ∧
    ∀ P ∈ [exRoot, exA, exB, exC], ∀ imp ∈ P.Imports, isStdLibPkg asciiEqualFold imp = false →
      ∀ ps, exLoadTotal imp = .ok ps → ∀ q ∈ ps,
        ∃ p ∈ [exRoot, exA, exB, exC], asciiEqualFold p.PkgPath q.PkgPath = true :=
  ⟨by decide,
    (C5_appendPkgImports_closed asciiEqualFold asciiEqualFold_refl exLoadTotal exLoadTotal_total
      listedOrder (fun _ _ h => h) 5 exRoot ([exRoot, exA, exB, exC], none) (by decide)).2⟩


/-! ## The dependency closure: the log of the calls -/

theorem packLoopLog_erase (EqualFold : GoString → GoString → Bool)
    (recurL : Package → List Package → List Package → Option Logged)
    (recur : Package → List Package → Option (List Package × Option String))
    (hrec : ∀ pack acc log, (recurL pack acc log).map Logged.erase = recur pack acc)
    (ps : List Package) :
    ∀ acc log, (packLoopLog EqualFold recurL ps acc log).map Logged.erase
      = packLoop EqualFold recur ps acc := by
  induction ps with
  | nil =>
    intro acc log
    simp [packLoopLog, packLoop, Logged.erase]
  | cons pack rest ih =>
    intro acc log
    rw [packLoopLog, packLoop]
    cases hin : pkgInPkgs EqualFold pack.PkgPath acc with
    | true =>
      simp only [if_true]
      exact ih acc log
    | false =>
      simp only [Bool.false_eq_true, if_false]
      rw [← hrec pack (acc ++ [pack]) log]
      cases hr : recurL pack (acc ++ [pack]) log with
      | none => simp
      | some r1 =>
        obtain ⟨l1, v1, e1⟩ := r1
        cases e1 with
        | some err => simp [Logged.erase]
        | none =>
          simp only [Option.map_some', Logged.erase]
          exact ih l1 v1

theorem impLoopLog_erase (EqualFold : GoString → GoString → Bool) (load : Loader)
    (recurL : Package → List Package → List Package → Option Logged)
    (recur : Package → List Package → Option (List Package × Option String))
    (hrec : ∀ pack acc log, (recurL pack acc log).map Logged.erase = recur pack acc)
    (imps : List GoString) :
    ∀ acc log, (impLoopLog EqualFold load recurL imps acc log).map Logged.erase
      = impLoop EqualFold load recur imps acc := by
  induction imps with
  | nil =>
    intro acc log
    simp [impLoopLog, impLoop, Logged.erase]
  | cons imp rest ih =>
    intro acc log
    rw [impLoopLog, impLoop]
    cases hstd : isStdLibPkg EqualFold imp with
    | true =>
      simp only [if_true]
      exact ih acc log
    | false =>
      simp only [Bool.false_eq_true, if_false]
      cases hl : loadPkg load imp with
      | error err => simp [Logged.erase]
      | ok p =>
        simp only
        rw [← packLoopLog_erase EqualFold recurL recur hrec p acc log]
        cases hp : packLoopLog EqualFold recurL p acc log with
        | none => simp
        | some r1 =>
          obtain ⟨l1, v1, e1⟩ := r1
          cases e1 with
          | some err => simp [Logged.erase]
          | none =>
            simp only [Option.map_some', Logged.erase]
            exact ih l1 v1

/-- The log is ghost state: without it, the logged traversal is `appendPkgImports`. -/
theorem appendPkgImportsLog_erase (EqualFold : GoString → GoString → Bool) (load : Loader)
    (order : RangeOrder) (fuel : Nat) :
    ∀ pkg pkgs log, (appendPkgImportsLog EqualFold load order fuel pkg pkgs log).map Logged.erase
      = appendPkgImports EqualFold load order fuel pkg pkgs := by
  induction fuel with
  | zero =>
    intro pkg pkgs log
    simp [appendPkgImportsLog, appendPkgImports]
  | succ n ih =>
    intro pkg pkgs log
    rw [appendPkgImportsLog, appendPkgImports]
    exact impLoopLog_erase EqualFold load _ _ ih (order pkg) pkgs (log ++ [pkg])

theorem packLoopLog_visited (EqualFold : GoString → GoString → Bool)
    (recurL : Package → List Package → List Package → Option Logged)
    (hrec : ∀ pack acc log r, recurL pack acc log = some r →
      ∃ t, r.pkgs = acc ++ t ∧ r.visited = log ++ [pack] ++ t)
    (ps : List Package) :
    ∀ acc log r, packLoopLog EqualFold recurL ps acc log = some r →
      ∃ t, r.pkgs = acc ++ t ∧ r.visited = log ++ t := by
  induction ps with
  | nil =>
    intro acc log r h
    simp only [packLoopLog, Option.some.injEq] at h
    subst h
    exact ⟨[], by simp, by simp⟩
  | cons pack rest ih =>
    intro acc log r h
    rw [packLoopLog] at h
    cases hin : pkgInPkgs EqualFold pack.PkgPath acc with
    | true =>
      simp only [hin, if_true] at h
      exact ih acc log r h
    | false =>
      simp only [hin, Bool.false_eq_true, if_false] at h
      cases hr : recurL pack (acc ++ [pack]) log with
      | none => simp [hr] at h
      | some r1 =>
        obtain ⟨t1, hp1, hv1⟩ := hrec pack (acc ++ [pack]) log r1 hr
        obtain ⟨l1, v1, e1⟩ := r1
        simp only at hp1 hv1
        cases e1 with
        | some err =>
          simp only [hr, Option.some.injEq] at h
          subst h
          exact ⟨[pack] ++ t1, by simp [hp1], by simp [hv1]⟩
        | none =>
          simp only [hr] at h
          obtain ⟨t2, hp2, hv2⟩ := ih l1 v1 r h
          exact ⟨[pack] ++ t1 ++ t2, by simp [hp2, hp1], by simp [hv2, hv1]⟩

theorem impLoopLog_visited (EqualFold : GoString → GoString → Bool) (load : Loader)
    (recurL : Package → List Package → List Package → Option Logged)
    (hrec : ∀ pack acc log r, recurL pack acc log = some r →
      ∃ t, r.pkgs = acc ++ t ∧ r.visited = log ++ [pack] ++ t)
    (imps : List GoString) :
    ∀ acc log r, impLoopLog EqualFold load recurL imps acc log = some r →
      ∃ t, r.pkgs = acc ++ t ∧ r.visited = log ++ t := by
  induction imps with
  | nil =>
    intro acc log r h
    simp only [impLoopLog, Option.some.injEq] at h
    subst h
    exact ⟨[], by simp, by simp⟩
  | cons imp rest ih =>
    intro acc log r h
    rw [impLoopLog] at h
    cases hstd : isStdLibPkg EqualFold imp with
    | true =>
      simp only [hstd, if_true] at h
      exact ih acc log r h
    | false =>
      simp only [hstd, Bool.false_eq_true, if_false] at h
      cases hl : loadPkg load imp with
      | error err =>
        simp only [hl, Option.some.injEq] at h
        subst h
        exact ⟨[], by simp, by simp⟩
      | ok p =>
        simp only [hl] at h
        cases hp : packLoopLog EqualFold recurL p acc log with
        | none => simp [hp] at h
        | some r1 =>
          obtain ⟨t1, hp1, hv1⟩ := packLoopLog_visited EqualFold recurL hrec p acc log r1 hp
          obtain ⟨l1, v1, e1⟩ := r1
          simp only at hp1 hv1
          cases e1 with
          | some err =>
            simp only [hp, Option.some.injEq] at h
            subst h
            exact ⟨t1, hp1, hv1⟩
          | none =>
            simp only [hp] at h
            obtain ⟨t2, hp2, hv2⟩ := ih l1 v1 r h
            exact ⟨t1 ++ t2, by simp [hp2, hp1], by simp [hv2, hv1]⟩

/-- The calls of the traversal: the call itself, and then one call for each
package appended to the closure, at the moment it is appended. -/
theorem appendPkgImportsLog_visited (EqualFold : GoString → GoString → Bool) (load : Loader)
    (order : RangeOrder) (fuel : Nat) :
    ∀ pkg pkgs log r, appendPkgImportsLog EqualFold load order fuel pkg pkgs log = some r →
      ∃ t, r.pkgs = pkgs ++ t ∧ r.visited = log ++ [pkg] ++ t := by
  induction fuel with
  | zero =>
    intro pkg pkgs log r h
    simp [appendPkgImportsLog] at h
  | succ n ih =>
    intro pkg pkgs log r h
    rw [appendPkgImportsLog] at h
    exact impLoopLog_visited EqualFold load _ ih (order pkg) pkgs (log ++ [pkg]) r h


/-! ## The dependency closure: termination -/

theorem filter_length_lt {α : Type} (l : List α) (p q : α → Bool)
    (h : ∀ a, p a = true → q a = true) (x : α) (hx : x ∈ l) (hq : q x = true)
    (hp : p x = false) : (l.filter p).length < (l.filter q).length := by
  induction l with
  | nil => simp at hx
  | cons a rest ih =>
    have hle : (rest.filter p).length ≤ (rest.filter q).length :=
      (List.monotone_filter_right rest h).length_le
    rcases List.mem_cons.1 hx with rfl | hx'
    · simp only [List.filter_cons, hq, hp, if_true, Bool.false_eq_true, if_false,
        List.length_cons]
      omega
    · have ih' := ih hx'
      cases hpa : p a with
      | true =>
        simp only [List.filter_cons, hpa, h a hpa, if_true, List.length_cons]
        omega
      | false =>
        cases hqa : q a with
        | true =>
          simp only [List.filter_cons, hpa, hqa, if_true, Bool.false_eq_true, if_false,
            List.length_cons]
          omega
        | false =>
          simp only [List.filter_cons, hpa, hqa, Bool.false_eq_true, if_false]
          exact ih'

theorem uncovered_le_length (S : List GoString) (pkgs : List Package) :
    uncovered S pkgs ≤ S.length :=
  List.length_filter_le _ _

theorem uncovered_le_of_subset (S : List GoString) (pkgs pkgs' : List Package)
    (hsub : pkgs ⊆ pkgs') : uncovered S pkgs' ≤ uncovered S pkgs := by
  unfold uncovered
  apply (List.monotone_filter_right S _).length_le
  intro s hs
  simp only [decide_eq_true_eq] at hs ⊢
  intro hmem
  apply hs
  obtain ⟨p, hp, he⟩ := List.mem_map.1 hmem
  exact List.mem_map.2 ⟨p, hsub hp, he⟩

theorem uncovered_append_lt (EqualFold : GoString → GoString → Bool)
    (hrefl : ∀ a, EqualFold a a = true) (S : List GoString) (acc : List Package)
    (pack : Package) (hS : pack.PkgPath ∈ S)
    (hin : pkgInPkgs EqualFold pack.PkgPath acc = false) :
    uncovered S (acc ++ [pack]) < uncovered S acc := by
  have hnot : pack.PkgPath ∉ acc.map Package.PkgPath := by
    intro hmem
    obtain ⟨p, hp, he⟩ := List.mem_map.1 hmem
    have h1 := (pkgInPkgs_eq_false EqualFold pack.PkgPath acc).1 hin p hp
    rw [he, hrefl] at h1
    cases h1
  unfold uncovered
  apply filter_length_lt S _ _ _ pack.PkgPath hS
  · simpa using hnot
  · simp
  · intro s hs
    simp only [decide_eq_true_eq] at hs ⊢
    intro hmem
    apply hs
    simp only [List.map_append, List.mem_append]
    exact Or.inl hmem

theorem packLoop_terminates (EqualFold : GoString → GoString → Bool)
    (hrefl : ∀ a, EqualFold a a = true) (S : List GoString) (n : Nat)
    (recur : Package → List Package → Option (List Package × Option String))
    (hrec : ∀ pack acc, uncovered S acc < n → ∃ r, recur pack acc = some r ∧ acc ⊆ r.1)
    (ps : List Package) :
    ∀ acc, (∀ q ∈ ps, q.PkgPath ∈ S) → uncovered S acc ≤ n →
      ∃ r, packLoop EqualFold recur ps acc = some r ∧ acc ⊆ r.1 := by
  induction ps with
  | nil =>
    intro acc _ _
    exact ⟨(acc, none), by simp [packLoop], List.Subset.refl _⟩
  | cons pack rest ih =>
    intro acc hps hn
    have hrest : ∀ q ∈ rest, q.PkgPath ∈ S := fun q hq => hps q (List.mem_cons_of_mem _ hq)
    rw [packLoop]
    cases hin : pkgInPkgs EqualFold pack.PkgPath acc with
    | true =>
      simp only [if_true]
      exact ih acc hrest hn
    | false =>
      simp only [Bool.false_eq_true, if_false]
      have hlt : uncovered S (acc ++ [pack]) < n :=
        Nat.lt_of_lt_of_le
          (uncovered_append_lt EqualFold hrefl S acc pack (hps pack (List.mem_cons_self _ _)) hin)
          hn
      obtain ⟨r1, hr, hsub1⟩ := hrec pack (acc ++ [pack]) hlt
      obtain ⟨l1, e1⟩ := r1
      have hacc : acc ⊆ l1 := fun x hx => hsub1 (List.mem_append_left _ hx)
      cases e1 with
      | some err =>
        simp only [hr]
        exact ⟨(l1, some err), rfl, hacc⟩
      | none =>
        simp only [hr]
        have hn1 : uncovered S l1 ≤ n :=
          Nat.le_trans (uncovered_le_of_subset S acc l1 hacc) hn
        obtain ⟨r2, hr2, hsub2⟩ := ih l1 hrest hn1
        exact ⟨r2, hr2, fun x hx => hsub2 (hacc hx)⟩

theorem impLoop_terminates (EqualFold : GoString → GoString → Bool)
    (hrefl : ∀ a, EqualFold a a = true) (load : Loader) (S : List GoString)
    (hS : ∀ path ps, load path = .ok ps → ∀ q ∈ ps, q.PkgPath ∈ S) (n : Nat)
    (recur : Package → List Package → Option (List Package × Option String))
    (hrec : ∀ pack acc, uncovered S acc < n → ∃ r, recur pack acc = some r ∧ acc ⊆ r.1)
    (imps : List GoString) :
    ∀ acc, uncovered S acc ≤ n →
      ∃ r, impLoop EqualFold load recur imps acc = some r ∧ acc ⊆ r.1 := by
  induction imps with
  | nil =>
    intro acc _
    exact ⟨(acc, none), by simp [impLoop], List.Subset.refl _⟩
  | cons imp rest ih =>
    intro acc hn
    rw [impLoop]
    cases hstd : isStdLibPkg EqualFold imp with
    | true =>
      simp only [if_true]
      exact ih acc hn
    | false =>
      simp only [Bool.false_eq_true, if_false, loadPkg_eq]
      cases hl : load imp with
      | error err =>
        exact ⟨(acc, some err), rfl, List.Subset.refl _⟩
      | ok p =>
        simp only
        obtain ⟨r1, hr, hsub1⟩ :=
          packLoop_terminates EqualFold hrefl S n recur hrec p acc (hS imp p hl) hn
        obtain ⟨l1, e1⟩ := r1
        cases e1 with
        | some err =>
          simp only [hr]
          exact ⟨(l1, some err), rfl, hsub1⟩
        | none =>
          simp only [hr]
          have hn1 : uncovered S l1 ≤ n :=
            Nat.le_trans (uncovered_le_of_subset S acc l1 hsub1) hn
          obtain ⟨r2, hr2, hsub2⟩ := ih l1 hn1
          exact ⟨r2, hr2, fun x hx => hsub2 (hsub1 hx)⟩

/-- With the `PkgPath` values of the loaded packages drawn from the finite list
`S`, the traversal returns as soon as the fuel exceeds the number of entries of
`S` that the closure does not hold yet. -/
theorem appendPkgImports_terminates (EqualFold : GoString → GoString → Bool)
    (hrefl : ∀ a, EqualFold a a = true) (load : Loader) (order : RangeOrder)
    (S : List GoString)
    (hS : ∀ path ps, load path = .ok ps → ∀ q ∈ ps, q.PkgPath ∈ S) (fuel : Nat) :
    ∀ pkg pkgs, uncovered S pkgs < fuel →
      ∃ r, appendPkgImports EqualFold load order fuel pkg pkgs = some r ∧ pkgs ⊆ r.1 := by
  induction fuel with
  | zero =>
    intro pkg pkgs h
    omega
  | succ n ih =>
    intro pkg pkgs h
    rw [appendPkgImports]
    exact impLoop_terminates EqualFold hrefl load S hS n _ ih (order pkg) pkgs (by omega)


theorem packLoop_mono (EqualFold : GoString → GoString → Bool)
    (rec1 rec2 : Package → List Package → Option (List Package × Option String))
    (hrec : ∀ pack acc r, rec1 pack acc = some r → rec2 pack acc = some r)
    (ps : List Package) :
    ∀ acc r, packLoop EqualFold rec1 ps acc = some r → packLoop EqualFold rec2 ps acc = some r := by
  induction ps with
  | nil =>
    intro acc r h
    simpa [packLoop] using h
  | cons pack rest ih =>
    intro acc r h
    rw [packLoop] at h ⊢
    cases hin : pkgInPkgs EqualFold pack.PkgPath acc with
    | true =>
      simp only [hin, if_true] at h ⊢
      exact ih acc r h
    | false =>
      simp only [hin, Bool.false_eq_true, if_false] at h ⊢
      cases hr : rec1 pack (acc ++ [pack]) with
      | none => simp [hr] at h
      | some r1 =>
        rw [hrec pack (acc ++ [pack]) r1 hr]
        obtain ⟨l1, e1⟩ := r1
        cases e1 with
        | some err => simpa [hr] using h
        | none =>
          simp only [hr] at h
          exact ih l1 r h

theorem impLoop_mono (EqualFold : GoString → GoString → Bool) (load : Loader)
    (rec1 rec2 : Package → List Package → Option (List Package × Option String))
    (hrec : ∀ pack acc r, rec1 pack acc = some r → rec2 pack acc = some r)
    (imps : List GoString) :
    ∀ acc r, impLoop EqualFold load rec1 imps acc = some r →
      impLoop EqualFold load rec2 imps acc = some r := by
  induction imps with
  | nil =>
    intro acc r h
    simpa [impLoop] using h
  | cons imp rest ih =>
    intro acc r h
    rw [impLoop] at h ⊢
    cases hstd : isStdLibPkg EqualFold imp with
    | true =>
      simp only [hstd, if_true] at h ⊢
      exact ih acc r h
    | false =>
      simp only [hstd, Bool.false_eq_true, if_false] at h ⊢
      cases hl : loadPkg load imp with
      | error err => simpa [hl] using h
      | ok p =>
        simp only [hl] at h ⊢
        cases hp : packLoop EqualFold rec1 p acc with
        | none => simp [hp] at h
        | some r1 =>
          rw [packLoop_mono EqualFold rec1 rec2 hrec p acc r1 hp]
          obtain ⟨l1, e1⟩ := r1
          cases e1 with
          | some err => simpa [hp] using h
          | none =>
            simp only [hp] at h
            exact ih l1 r h

/-- More fuel does not change a result. -/
theorem appendPkgImports_fuel_mono (EqualFold : GoString → GoString → Bool) (load : Loader)
    (order : RangeOrder) (fuel : Nat) :
    ∀ fuel' pkg pkgs r, fuel ≤ fuel' →
      appendPkgImports EqualFold load order fuel pkg pkgs = some r →
      appendPkgImports EqualFold load order fuel' pkg pkgs = some r := by
  induction fuel with
  | zero =>
    intro fuel' pkg pkgs r _ h
    simp [appendPkgImports] at h
  | succ n ih =>
    intro fuel' pkg pkgs r hle h
    obtain ⟨m, rfl⟩ : ∃ m, fuel' = m + 1 := ⟨fuel' - 1, by omega⟩
    rw [appendPkgImports] at h ⊢
    exact impLoop_mono EqualFold load _ _
      (fun pack acc r1 h1 => ih m pack acc r1 (by omega) h1) (order pkg) pkgs r h

theorem pairwise_append_of_not_in (EqualFold : GoString → GoString → Bool)
    (acc : List Package) (pack : Package)
    (hpw : acc.Pairwise (fun a b => EqualFold a.PkgPath b.PkgPath = false))
    (hin : pkgInPkgs EqualFold pack.PkgPath acc = false) :
    (acc ++ [pack]).Pairwise (fun a b => EqualFold a.PkgPath b.PkgPath = false) := by
  rw [List.pairwise_append]
  refine ⟨hpw, List.pairwise_singleton _ _, ?_⟩
  intro a ha b hb
  rw [List.mem_singleton] at hb
  subst hb
  exact (pkgInPkgs_eq_false EqualFold b.PkgPath acc).1 hin a ha

/-- C10: when the loaded packages draw their `PkgPath` values from the finite
list `S`, `appendPkgImports` on the single root package terminates, import
cycles or not: every fuel above the length of `S` gives the same result.  The
packages it recurses into are, in order, exactly the entries of the closure: the
root for the first call, and each other package at the moment it is appended; no
package is recursed into twice. -/
theorem C10_appendPkgImports_terminates (EqualFold : GoString → GoString → Bool)
    (hrefl : ∀ a, EqualFold a a = true) (load : Loader) (order : RangeOrder)
    (S : List GoString)
    (hS : ∀ path ps, load path = .ok ps → ∀ q ∈ ps, q.PkgPath ∈ S)
    (root : Package) (fuel : Nat) (hfuel : S.length < fuel) :
    ∃ r : Logged,
      appendPkgImportsLog EqualFold load order fuel root [root] [] = some r ∧
      (∀ fuel', fuel ≤ fuel' →
        appendPkgImports EqualFold load order fuel' root [root] = some (r.pkgs, r.err)) ∧
      r.visited = r.pkgs ∧
      r.visited.Nodup ∧
      r.visited.Pairwise (fun a b => EqualFold a.PkgPath b.PkgPath = false) := by
  obtain ⟨r0, hr0, _⟩ := appendPkgImports_terminates EqualFold hrefl load order S hS fuel root
    [root] (Nat.lt_of_le_of_lt (uncovered_le_length S [root]) hfuel)
  have herase := appendPkgImportsLog_erase EqualFold load order fuel root [root] []
  rw [hr0] at herase
  cases hlog : appendPkgImportsLog EqualFold load order fuel root [root] [] with
  | none => simp [hlog] at herase
  | some r =>
    simp only [hlog, Option.map_some', Option.some.injEq] at herase
    have hplain : appendPkgImports EqualFold load order fuel root [root] = some (r.pkgs, r.err) := by
      rw [hr0, ← herase]
      rfl
    obtain ⟨t, hp, hv⟩ := appendPkgImportsLog_visited EqualFold load order fuel root [root] [] r hlog
    have hvp : r.visited = r.pkgs := by
      rw [hp, hv]
      simp
    have hpw : r.pkgs.Pairwise (fun a b => EqualFold a.PkgPath b.PkgPath = false) :=
      appendPkgImports_invariant EqualFold load order
        (fun l => l.Pairwise (fun a b => EqualFold a.PkgPath b.PkgPath = false))
        (pairwise_append_of_not_in EqualFold) fuel root [root] (r.pkgs, r.err) hplain
        (List.pairwise_singleton _ _)
    refine ⟨r, rfl, ?_, hvp, ?_, ?_⟩
    · intro fuel' hle
      exact appendPkgImports_fuel_mono EqualFold load order fuel fuel' root [root] _ hle hplain
    · rw [hvp]
      refine hpw.imp ?_
      intro a b hab heq
      rw [heq, hrefl] at hab
      cases hab
    · rw [hvp]
      exact hpw

theorem exLoad_paths (path : GoString) (ps : List Package) (h : exLoad path = .ok ps) :
    ∀ q ∈ ps, q.PkgPath ∈ ["m/a".toList, "m/b".toList, "m/c".toList] := by
  unfold exLoad at h
  split_ifs at h <;> cases h <;> decide

/-- Witness of C10: the example graph has the import cycle `m/a`, `m/b`, `m/a`
and the traversal of it returns with fuel 4, having recursed into `m`, `m/a`,
`m/b` and `m/c` once each. -/
theorem C10_appendPkgImports_terminates_witness :
    appendPkgImportsLog asciiEqualFold exLoad listedOrder 4 exRoot [exRoot] []
      = some ⟨[exRoot, exA, exB, exC], [exRoot, exA, exB, exC], none⟩ ∧
    ∃ r : Logged,
      appendPkgImportsLog asciiEqualFold exLoad listedOrder 4 exRoot [exRoot] [] = some r ∧
      (∀ fuel', 4 ≤ fuel' →
        appendPkgImports asciiEqualFold exLoad listedOrder fuel' exRoot [exRoot]
          = some (r.pkgs, r.err)) ∧
      r.visited = r.pkgs ∧
      r.visited.Nodup ∧
      r.visited.Pairwise (fun a b => asciiEqualFold a.PkgPath b.PkgPath = false) :=
  ⟨by decide,
    C10_appendPkgImports_terminates asciiEqualFold asciiEqualFold_refl exLoad listedOrder
      ["m/a".toList, "m/b".toList, "m/c".toList] exLoad_paths exRoot 4 (by decide)⟩


/-! ## The dependency closure: the order of the result -/

/-- C6 (the code departs from it): on the second example graph, where the root
imports the two packages `m/a` and `m/b`, the range order `listedOrder` and the
range order `reversedOrder` visit the same imports of every package, and the
two runs on the same loader and the same root return closures with the same
members in different orders: position 1 holds `m/a` in one run and `m/b` in the
other. -/
theorem C6_order_depends_on_range_order :
    (reversedOrder dagRoot).Perm (listedOrder dagRoot) ∧
    (reversedOrder dagA).Perm (listedOrder dagA) ∧
    (reversedOrder dagB).Perm (listedOrder dagB) ∧
    (reversedOrder dagC).Perm (listedOrder dagC) ∧
    appendPkgImports asciiEqualFold dagLoad listedOrder 4 dagRoot [dagRoot]
      = some ([dagRoot, dagA, dagC, dagB], none) ∧
    appendPkgImports asciiEqualFold dagLoad reversedOrder 4 dagRoot [dagRoot]
      = some ([dagRoot, dagB, dagC, dagA], none) ∧
    [dagRoot, dagA, dagC, dagB].Perm [dagRoot, dagB, dagC, dagA] ∧
    [dagRoot, dagA, dagC, dagB] ≠ [dagRoot, dagB, dagC, dagA] ∧
    ([dagRoot, dagA, dagC, dagB].map Package.Name)[1]? = some "a".toList ∧
    ([dagRoot, dagB, dagC, dagA].map Package.Name)[1]? = some "b".toList := by
  refine ⟨List.reverse_perm _, List.reverse_perm _, List.reverse_perm _, List.reverse_perm _,
    ?_, ?_, ?_, ?_, ?_, ?_⟩ <;> decide

/-! ## The harness file -/

theorem fileHasOurHarness_foldl (fuzzerName : GoString) (decls : List Decl) (b : Bool) :
    decls.foldl
        (fun has decl =>
          match decl with
          | .FuncDecl d => if d.Name = fuzzerName then true else has
          | .GenDecl _ => has)
        b = true
      ↔ b = true ∨ ∃ d, Decl.FuncDecl d ∈ decls ∧ d.Name = fuzzerName := by
  induction decls generalizing b with
  | nil => simp
  | cons decl rest ih =>
    rw [List.foldl_cons, ih]
    cases decl with
    | GenDecl src => simp
    | FuncDecl d =>
      by_cases hn : d.Name = fuzzerName
      · simp only [hn, if_true, true_or, true_iff]
        exact Or.inr ⟨d, List.mem_cons_self _ _, hn⟩
      · simp only [hn, if_false]
        constructor
        · rintro (h | ⟨d', hd', hn'⟩)
          · exact Or.inl h
          · exact Or.inr ⟨d', List.mem_cons_of_mem _ hd', hn'⟩
        · rintro (h | ⟨d', hd', hn'⟩)
          · exact Or.inl h
          · rcases List.mem_cons.1 hd' with heq | hmem
            · cases heq
              exact absurd hn' hn
            · exact Or.inr ⟨d', hmem, hn'⟩

theorem fileHasOurHarness_iff (fuzzerName : GoString) (decls : List Decl) :
    fileHasOurHarness fuzzerName decls = true
      ↔ ∃ d, Decl.FuncDecl d ∈ decls ∧ d.Name = fuzzerName := by
  unfold fileHasOurHarness
  rw [fileHasOurHarness_foldl]
  simp

/-- C9 as stated fails: the example file exists, parses and declares the
function `ourTestHelper`, and where the operating system refuses to create
`/mod/file.go_fuzz.go` the call `rewriteFuzzer` panics, through the
`panic(err)` after `os.Create`, instead of returning a nil error; the disk is
left as it was. -/
theorem C9_rewriteFuzzer_panics_when_create_fails :
    GoMap.get exDisk exPath = some exSrc ∧
    (exTools.ParseFile exSrc).toOption = some exFile ∧
    fileHasOurHarness "ourTestHelper".toList exFile.Decls = true ∧
    rewriteFuzzer exTools (fun _ => false) exDisk exPath "ourTestHelper".toList
      = (exDisk, [], [], Exit.panic "open: permission denied") ∧
    (rewriteFuzzer exTools (fun _ => false) exDisk exPath "ourTestHelper".toList).2.2.2
      ≠ Exit.nil := by
  decide

/-- C9 amended: for a file at `path` that parses, `rewriteFuzzer` returns the
empty path, the marker `NONE` and no error, and leaves the disk as it is, when
no top-level function declaration is named `fuzzerName`.  When one is and
`os.Create` of `path_fuzz.go` succeeds, it returns `path`, the bytes the file
had before the call and no error; the file at `path` still holds those bytes,
`path_fuzz.go` holds the printed tree and no other file changes.  When one is
and `os.Create` fails, it panics with that error and the disk is as it was. -/
theorem C9_rewriteFuzzer_results (T : GoTools) (canCreate : GoString → Bool) (disk : Disk)
    (path fuzzerName src : GoString) (f : File) (hfile : GoMap.get disk path = some src)
    (hparse : T.ParseFile src = .ok f) :
    ((¬ ∃ d, Decl.FuncDecl d ∈ f.Decls ∧ d.Name = fuzzerName) →
      rewriteFuzzer T canCreate disk path fuzzerName = (disk, [], "NONE".toList, Exit.nil)) ∧
    ((∃ d, Decl.FuncDecl d ∈ f.Decls ∧ d.Name = fuzzerName) →
      canCreate (path ++ "_fuzz.go".toList) = true →
      ∃ disk', rewriteFuzzer T canCreate disk path fuzzerName = (disk', path, src, Exit.nil) ∧
        GoMap.get disk' path = some src ∧
        GoMap.get disk' (path ++ "_fuzz.go".toList)
          = some (T.Fprint (T.AddImport (T.DeleteImport f "testing".toList) shimPath)) ∧
        ∀ p, p ≠ path ++ "_fuzz.go".toList → GoMap.get disk' p = GoMap.get disk p) ∧
    ((∃ d, Decl.FuncDecl d ∈ f.Decls ∧ d.Name = fuzzerName) →
      canCreate (path ++ "_fuzz.go".toList) = false →
      ∃ msg, rewriteFuzzer T canCreate disk path fuzzerName = (disk, [], [], Exit.panic msg)) := by
  have hp : parseFileAt T.ParseFile disk path = .ok f := by
    simp [parseFileAt, hfile, hparse]
  refine ⟨?_, ?_, ?_⟩
  · intro hno
    have hh : fileHasOurHarness fuzzerName f.Decls = false := by
      cases h : fileHasOurHarness fuzzerName f.Decls with
      | false => rfl
      | true => exact absurd ((fileHasOurHarness_iff fuzzerName f.Decls).1 h) hno
    simp [rewriteFuzzer, hp, hh]
  · intro hyes hcan
    have hh : fileHasOurHarness fuzzerName f.Decls = true :=
      (fileHasOurHarness_iff fuzzerName f.Decls).2 hyes
    refine ⟨GoMap.set disk (path ++ "_fuzz.go".toList)
      (T.Fprint (T.AddImport (T.DeleteImport f "testing".toList) shimPath)), ?_, ?_, ?_, ?_⟩
    · simp only [rewriteFuzzer, hp, hh, if_true, hfile, osCreate_of_true canCreate disk _ hcan,
        fileWrite, GoMap.set_set]
    · rw [GoMap.get_set]
      have hne : path ≠ path ++ "_fuzz.go".toList := by
        intro h
        have hl := congrArg List.length h
        simp at hl
      simp only [hne, if_false]
      exact hfile
    · rw [GoMap.get_set]
      simp
    · intro p hne
      rw [GoMap.get_set]
      simp only [hne, if_false]
  · intro hyes hcan
    have hh : fileHasOurHarness fuzzerName f.Decls = true :=
      (fileHasOurHarness_iff fuzzerName f.Decls).2 hyes
    exact ⟨"open: permission denied", by
      simp only [rewriteFuzzer, hp, hh, if_true, hfile, osCreate_of_false canCreate disk _ hcan]⟩

/-- Witness of C9 amended: the example file declares `ourTestHelper` and no
`FuzzX`; the sibling file can be created. -/
theorem C9_rewriteFuzzer_results_witness :
    rewriteFuzzer exTools (fun _ => true) exDisk exPath "FuzzX".toList
      = (exDisk, [], "NONE".toList, Exit.nil) ∧
    ∃ disk', rewriteFuzzer exTools (fun _ => true) exDisk exPath "ourTestHelper".toList
        = (disk', exPath, exSrc, Exit.nil) ∧
      GoMap.get disk' exPath = some exSrc ∧
      GoMap.get disk' (exPath ++ "_fuzz.go".toList)
        = some (exTools.Fprint
            (exTools.AddImport (exTools.DeleteImport exFile "testing".toList) shimPath)) ∧
      ∀ p, p ≠ exPath ++ "_fuzz.go".toList → GoMap.get disk' p = GoMap.get exDisk p :=
  ⟨(C9_rewriteFuzzer_results exTools (fun _ => true) exDisk exPath "FuzzX".toList exSrc exFile
      (by decide) (by simp [exTools])).1
      (fun h => absurd ((fileHasOurHarness_iff "FuzzX".toList exFile.Decls).2 h) (by decide)),
   (C9_rewriteFuzzer_results exTools (fun _ => true) exDisk exPath "ourTestHelper".toList exSrc
      exFile (by decide) (by simp [exTools])).2.1
      ((fileHasOurHarness_iff "ourTestHelper".toList exFile.Decls).1 (by decide)) rfl⟩

/-! ## The parameters of type `*testing.F` -/

theorem rewriteParam_eq (param : Field) :
    rewriteParam param = (specRetargetField param, decide (param.Type_ = testingF)) := by
  obtain ⟨names, ty⟩ := param
  unfold rewriteParam specRetargetField
  split
  · rename_i name sel heq
    simp only at heq
    subst heq
    by_cases h : name = "testing".toList ∧ sel = "F".toList
    · obtain ⟨rfl, rfl⟩ := h
      simp [testingF, customF]
    · have hne : ¬ (Expr.StarExpr (Expr.SelectorExpr (Expr.Ident name) sel) = testingF) := by
        intro e
        simp only [testingF, Expr.StarExpr.injEq, Expr.SelectorExpr.injEq, Expr.Ident.injEq] at e
        exact h e
      simp only [h, if_false, hne, decide_False]
  · rename_i hne
    have hne' : ¬ (ty = testingF) := by
      intro e
      subst e
      exact hne _ _ rfl
    simp [hne']

theorem customF_ne_testingF : customF ≠ testingF := by decide

theorem specRetargetField_eq_self_iff (param : Field) :
    specRetargetField param = param ↔ param.Type_ ≠ testingF := by
  obtain ⟨names, ty⟩ := param
  unfold specRetargetField
  by_cases h : ty = testingF
  · subst h
    simp only [if_true, ne_eq, not_true_eq_false, iff_false, Field.mk.injEq, true_and]
    exact customF_ne_testingF
  · simp [h]

theorem rewriteParams_eq (params : List Field) :
    ∀ update, rewriteParams params update
      = (params.map specRetargetField,
          update || params.any (fun param => decide (param.Type_ = testingF))) := by
  induction params with
  | nil => intro update; simp [rewriteParams]
  | cons param rest ih =>
    intro update
    rw [rewriteParams]
    simp only [rewriteParam_eq, ih]
    by_cases h : param.Type_ = testingF
    · simp [h]
    · simp [h]

theorem rewriteDecls_eq (decls : List Decl) :
    ∀ update, rewriteDecls decls update
      = (decls.map specRetargetDecl, update || decls.any declHasTestingFParam) := by
  induction decls with
  | nil => intro update; simp [rewriteDecls]
  | cons decl rest ih =>
    intro update
    cases decl with
    | FuncDecl d =>
      rw [rewriteDecls]
      simp only [rewriteParams_eq, ih]
      simp [specRetargetDecl, declHasTestingFParam, Bool.or_assoc]
    | GenDecl src =>
      rw [rewriteDecls]
      simp only [ih]
      simp [specRetargetDecl, declHasTestingFParam]

theorem map_specRetargetField_eq_self_iff (params : List Field) :
    params.map specRetargetField = params
      ↔ params.any (fun param => decide (param.Type_ = testingF)) = false := by
  induction params with
  | nil => simp
  | cons param rest ih =>
    simp only [List.map_cons, List.cons.injEq, specRetargetField_eq_self_iff, ih, List.any_cons,
      Bool.or_eq_false_iff, decide_eq_false_iff_not]

theorem specRetargetDecl_eq_self_iff (decl : Decl) :
    specRetargetDecl decl = decl ↔ declHasTestingFParam decl = false := by
  cases decl with
  | GenDecl src => simp [specRetargetDecl, declHasTestingFParam]
  | FuncDecl d =>
    obtain ⟨recv, name, params, results, body⟩ := d
    simp only [specRetargetDecl, declHasTestingFParam, Decl.FuncDecl.injEq, FuncDecl.mk.injEq,
      true_and, and_true]
    exact map_specRetargetField_eq_self_iff params

theorem specRetargetFile_eq_self_iff (f : File) :
    specRetargetFile f = f ↔ f.Decls.any declHasTestingFParam = false := by
  obtain ⟨name, imports, decls⟩ := f
  simp only [specRetargetFile, File.mk.injEq, true_and]
  induction decls with
  | nil => simp
  | cons decl rest ih =>
    simp only [List.map_cons, List.cons.injEq, specRetargetDecl_eq_self_iff, ih, List.any_cons,
      Bool.or_eq_false_iff]

/-- C8: on a file that parses, the loops of `rewriteTestingFFunctionParams`
turn the tree into the tree the specification describes: in every function
declaration every parameter of type `*testing.F` gets the type
`*customFuzzTestingPkg.F`, and every other parameter, every other declaration,
the package name and the imports stay as they were.  When the tree did not
change the function returns `nil` and leaves the disk alone; when it changed,
the function writes the printed new tree to `path` and returns `nil` if
`os.Create` succeeds, and panics with the error of `os.Create`, the disk
untouched, if it fails. -/
theorem C8_rewriteTestingFFunctionParams_retargets (T : GoTools) (canCreate : GoString → Bool)
    (disk : Disk) (path src : GoString) (f : File) (hfile : GoMap.get disk path = some src)
    (hparse : T.ParseFile src = .ok f) :
    (rewriteDecls f.Decls false).1 = (specRetargetFile f).Decls ∧
    (specRetargetFile f).Imports = f.Imports ∧
    (specRetargetFile f).Name = f.Name ∧
    (∀ param, param.Type_ ≠ testingF → specRetargetField param = param) ∧
    (∀ param, param.Type_ = testingF →
      specRetargetField param = { Names := param.Names, Type_ := customF }) ∧
    rewriteTestingFFunctionParams T canCreate disk path
      = (if specRetargetFile f = f then (disk, Exit.nil)
          else if canCreate path then
            (GoMap.set disk path (T.Fprint (specRetargetFile f)), Exit.nil)
          else (disk, Exit.panic "open: permission denied")) := by
  have hp : parseFileAt T.ParseFile disk path = .ok f := by
    simp [parseFileAt, hfile, hparse]
  refine ⟨?_, rfl, rfl, ?_, ?_, ?_⟩
  · rw [rewriteDecls_eq]
    rfl
  · intro param h
    exact (specRetargetField_eq_self_iff param).2 h
  · intro param h
    simp [specRetargetField, h]
  · unfold rewriteTestingFFunctionParams
    simp only [hp, rewriteDecls_eq, Bool.false_or]
    cases hany : f.Decls.any declHasTestingFParam with
    | false =>
      have hself : specRetargetFile f = f := (specRetargetFile_eq_self_iff f).2 hany
      simp [hself]
    | true =>
      have hself : ¬ specRetargetFile f = f := by
        intro h
        rw [(specRetargetFile_eq_self_iff f).1 h] at hany
        cases hany
      simp only [if_true, hself, if_false]
      cases hcan : canCreate path with
      | false =>
        simp only [osCreate_of_false canCreate disk path hcan, Bool.false_eq_true, if_false]
      | true =>
        simp only [osCreate_of_true canCreate disk path hcan, if_true, fileWrite,
          GoMap.set_set]
        rfl

/-- Witness of C8: in the example file the parameter `f *testing.F` is
retargeted and the parameters `t *testing.T`, `g testing.F` and `h *other.F`,
and the import of `testing`, stay; the new tree is written where the file can
be created, and the call panics where it cannot. -/
theorem C8_rewriteTestingFFunctionParams_retargets_witness :
    (specRetargetFile exFile).Decls = [.FuncDecl
      { Recv := []
        Name := "ourTestHelper".toList
        Params :=
          [{ Names := ["f".toList], Type_ := customF },
           { Names := ["t".toList],
             Type_ := .StarExpr (.SelectorExpr (.Ident "testing".toList) "T".toList) },
           { Names := ["g".toList], Type_ := .SelectorExpr (.Ident "testing".toList) "F".toList },
           { Names := ["h".toList],
             Type_ := .StarExpr (.SelectorExpr (.Ident "other".toList) "F".toList) }]
        Results := []
        Body := "_ = f".toList }] ∧
    rewriteTestingFFunctionParams exTools (fun _ => true) exDisk exPath
      = ([(exPath, exSrcRetargeted)], Exit.nil) ∧
    rewriteTestingFFunctionParams exTools (fun _ => false) exDisk exPath
      = (exDisk, Exit.panic "open: permission denied") ∧
    rewriteTestingFFunctionParams exTools (fun _ => true) exDisk exPath
      = (if specRetargetFile exFile = exFile then (exDisk, Exit.nil)
          else if (fun _ => true) exPath then
            (GoMap.set exDisk exPath (exTools.Fprint (specRetargetFile exFile)), Exit.nil)
          else (exDisk, Exit.panic "open: permission denied")) :=
  ⟨by decide, by decide, by decide,
    (C8_rewriteTestingFFunctionParams_retargets exTools (fun _ => true) exDisk exPath exSrc exFile
      (by decide) (by simp [exTools])).2.2.2.2.2⟩

/-! ## The import of `testing` -/

/-- C7 (the code departs from it): `rewriteTestingImport` never writes: whatever
the tools, the disk and the path, the disk after the call is the disk before it.
On the example file, which imports `testing` and not the shim, the call returns
`nil`, the file still parses to a tree whose only import is that of `testing`, and
even the tree in memory keeps that import, because `Path.Value` holds the quoted
literal and the code compares it with the unquoted path. -/
theorem C7_rewriteTestingImport_writes_nothing :
    (∀ (T : GoTools) (disk : Disk) (path : GoString),
      (rewriteTestingImport T disk path).1 = disk) ∧
    rewriteTestingImport exTools exDisk exPath = (exDisk, Exit.nil) ∧
    (parseFileAt exTools.ParseImportsOnly (rewriteTestingImport exTools exDisk exPath).1
        exPath).toOption.map File.Imports
      = some [{ Name := none, PathValue := quoted "testing".toList }] ∧
    replaceTestingImports exFile.Imports = exFile.Imports := by
  refine ⟨?_, by decide, by decide, by decide⟩
  intro T disk path
  unfold rewriteTestingImport
  cases parseFileAt T.ParseImportsOnly disk path with
  | error err => rfl
  | ok fCheck =>
    simp only
    split <;> rfl


end FileWalker
